import Mathlib

/-!
Verification development for the RAG ingestion/retrieval pipeline
(`src/pipeline-advanced`). The Python sources are shallowly embedded as
executable Lean definitions:

* `create_chunks.py` (Markdown chunker, keyword extractor),
* `rerank.py` (cross-encoder reranker; the cross-encoder itself is external
  and is modelled as an opaque scoring function parameter),
* `create_embeddings.py` (embedding layer with the on-disk cache; the
  sentence-transformers backend is modelled as an opaque encoding function,
  SHA-256 cache keys are modelled by their preimage payload strings),
* `update_weaviate.py`, `weaviate_purge.py`, `weaviate_infos.py` (vector-store
  adapter; the weaviate v4 client is modelled per its public API: inserts
  append fresh objects, `fetch_objects` returns a page of objects and its
  return value carries no pagination attributes).

Strings are modelled over their character lists; Python `str.strip`,
`str.split`, `str.splitlines`, `str.lower` and the regexes of the sources are
translated character by character. `\n` is the only line separator in the
model.
-/

namespace AwsGpu

/-! ## Python string primitives -/

/-- Whitespace as used by the model for Python `\s`, `str.strip()` and
`str.split()` (the sources only ever meet spaces, tabs, CR and LF). -/
def wsChar (c : Char) : Bool := c = ' ' ∨ c = '\t' ∨ c = '\r' ∨ c = '\n'

/-- Python `str.strip()` on a character list. -/
def stripChars (cs : List Char) : List Char :=
  ((cs.dropWhile wsChar).reverse.dropWhile wsChar).reverse

/-- Python `str.strip()`. -/
def pyStrip (s : String) : String := String.mk (stripChars s.data)

/-- Maximal runs of characters satisfying `p`, as strings (fuel-driven so the
definition stays kernel-reducible; fuel is the character count). -/
def runsF (p : Char → Bool) : Nat → List Char → List String
  | 0, _ => []
  | _, [] => []
  | fuel + 1, c :: cs =>
    if p c then
      String.mk (c :: cs.takeWhile p) :: runsF p fuel (cs.dropWhile p)
    else
      runsF p fuel cs

/-- Maximal runs of characters satisfying `p`. -/
def runsOf (p : Char → Bool) (cs : List Char) : List String := runsF p cs.length cs

/-- Python `str.split()` with no argument: whitespace-separated words. -/
def pyWords (s : String) : List String := runsOf (fun c => ¬ wsChar c) s.data

/-- Split a character list at every newline (Python `s.split("\n")`). -/
def splitNl : List Char → List (List Char)
  | [] => [[]]
  | c :: cs =>
    if c = '\n' then [] :: splitNl cs
    else
      match splitNl cs with
      | [] => [[c]]
      | l :: ls => (c :: l) :: ls

/-- The lines of a string, splitting at every `\n`. -/
def linesOf (s : String) : List String := (splitNl s.data).map String.mk

/-- Python `str.splitlines()` for `\n`-separated text: like splitting on
`\n` but a trailing newline produces no trailing empty line, and the empty
string has no lines. -/
def pySplitlines (s : String) : List String :=
  if s.data = [] then []
  else if s.data.getLast? = some '\n' then linesOf (String.mk s.data.dropLast)
  else linesOf s

/-- Python `str.lower()` on one character, for the Latin-1 letters the
keyword regex can see: ASCII `A`-`Z` and `À`-`Þ` (except `×`) map down by
32 code points. -/
def pyLowerChar (c : Char) : Char :=
  if 'A' ≤ c ∧ c ≤ 'Z' then Char.ofNat (c.toNat + 32)
  else if 'À' ≤ c ∧ c ≤ 'Þ' ∧ c ≠ '×' then Char.ofNat (c.toNat + 32)
  else c

/-- Python `str.lower()`. -/
def pyLower (s : String) : String := String.mk (s.data.map pyLowerChar)

/-- Python `str.isdigit()` (ASCII digits). -/
def pyIsDigit (s : String) : Bool := s.data ≠ [] ∧ s.data.all Char.isDigit

/-- Split a character list at a separator character, keeping empty pieces
(Python `s.split(sep)` for a one-character separator). -/
def splitOnChar (sep : Char) : List Char → List (List Char)
  | [] => [[]]
  | c :: cs =>
    if c = sep then [] :: splitOnChar sep cs
    else
      match splitOnChar sep cs with
      | [] => [[c]]
      | l :: ls => (c :: l) :: ls

/-- Python `str.strip("|")`: remove every leading and trailing `|`. -/
def stripPipes (cs : List Char) : List Char :=
  ((cs.dropWhile (· = '|')).reverse.dropWhile (· = '|')).reverse

/-- Python `sep.join(parts)`. -/
def joinWith (sep : String) : List String → String
  | [] => ""
  | [a] => a
  | a :: b :: rest => a ++ sep ++ joinWith sep (b :: rest)

/-- `Path(p).stem`: the final path component without its last suffix; a dot
counts as a suffix separator only when it is neither the first nor the last
character of the name. -/
def pathStem (p : String) : String :=
  let nm := ((splitOnChar '/' p.data).getLastD [])
  if ('.' ∈ nm.drop 1) ∧ nm.getLast? ≠ some '.' then
    String.mk (nm.take (nm.length - 1 - List.indexOf '.' nm.reverse))
  else String.mk nm

/-! ## `create_chunks.py`: the Markdown chunker -/

/-- `estimate_tokens`: count whitespace-separated words. -/
def estimate_tokens (text : String) : Nat := (pyWords text).length

/-- `_heading_re = ^(#{1,6})\s+(.+?)\s*$` as a match: the level and the title
with surrounding whitespace trimmed (the chunker always applies `.strip()` to
the title group, so the trimmed title is returned directly). -/
def headingParse (l : String) : Option (Nat × String) :=
  let ks := l.data.takeWhile (· = '#')
  let rest := l.data.dropWhile (· = '#')
  if 1 ≤ ks.length ∧ ks.length ≤ 6 ∧ 2 ≤ rest.length ∧ wsChar (rest.headD 'x') then
    some (ks.length, pyStrip (String.mk rest))
  else none

/-- A line matching `_heading_re`. -/
def isHeadingLine (l : String) : Bool := (headingParse l).isSome

/-- `_is_list_item_start`: `^\s*(?:[-*+]\s+|\d+[.)]\s+)`. -/
def is_list_item_start (l : String) : Bool :=
  let cs := l.data.dropWhile wsChar
  match cs with
  | [] => false
  | c :: rest =>
    if c = '-' ∨ c = '*' ∨ c = '+' then
      match rest with
      | [] => false
      | c2 :: _ => wsChar c2
    else if cs.takeWhile Char.isDigit = [] then false
    else
      match cs.dropWhile Char.isDigit with
      | p :: q :: _ => (p == '.' || p == ')') && wsChar q
      | _ => false

/-- `_is_indented_continuation`: `^\s{2,}\S` or a leading tab. -/
def is_indented_continuation (l : String) : Bool :=
  (2 ≤ (l.data.takeWhile wsChar).length ∧ l.data.dropWhile wsChar ≠ []) ∨
    l.data.headD 'x' = '\t'

/-- Drop leading whitespace characters. -/
def chompWs (cs : List Char) : List Char := cs.dropWhile wsChar

/-- One `:?-{3,}:?` group of the table separator regex: returns the remaining
input on success. -/
def dashGroup (cs : List Char) : Option (List Char) :=
  let cs1 := if cs.headD 'x' = ':' then cs.tail else cs
  let ds := cs1.takeWhile (· = '-')
  let r := cs1.dropWhile (· = '-')
  if 3 ≤ ds.length then some (if r.headD 'x' = ':' then r.tail else r) else none

/-- The `(\|\s*:?-{3,}:?\s*)+\|?\s*$` tail of the separator regex: `reps`
counts the repetitions consumed so far. Fuel-driven over the input length. -/
def sepTail : Nat → Nat → List Char → Bool
  | 0, reps, cs => cs = [] ∧ 1 ≤ reps
  | _, reps, [] => 1 ≤ reps
  | fuel + 1, reps, c :: cs =>
    if c = '|' then
      match dashGroup (chompWs cs) with
      | some r => sepTail fuel (reps + 1) (chompWs r)
      | none => 1 ≤ reps ∧ cs.all wsChar
    else false

/-- The full table separator regex
`^\s*\|?\s*:?-{3,}:?\s*(\|\s*:?-{3,}:?\s*)+\|?\s*$`. -/
def sepLineOk (l : String) : Bool :=
  let cs0 := chompWs l.data
  let cs1 := if cs0.headD 'x' = '|' then chompWs cs0.tail else cs0
  match dashGroup cs1 with
  | some r => sepTail l.data.length 0 (chompWs r)
  | none => false

/-- `split_row`: strip the row, strip outer pipes, split at `|`, strip each
cell. -/
def split_row (row : String) : List String :=
  (splitOnChar '|' (stripPipes (stripChars row.data))).map
    (fun cs => pyStrip (String.mk cs))

/-- Collect table body rows: consecutive lines containing a `|`. Returns the
rows and how many lines were consumed. -/
def tableRowsAux : List String → List String × Nat
  | [] => ([], 0)
  | l :: ls =>
    if l.data.contains '|' then
      let (rs, n) := tableRowsAux ls
      (l :: rs, n + 1)
    else ([], 0)

/-- Render one table row as `col: value; col: value`, skipping empty cells. -/
def renderRowCells (headers : List String) (row : List String) : List String :=
  row.enum.filterMap (fun p =>
    if p.2 ≠ "" then
      some ((headers.getD p.1 ("col" ++ toString (p.1 + 1))) ++ ": " ++ p.2)
    else none)

/-- `parse_table_block`: detect a header line containing `|` followed by a
separator line; consume subsequent lines containing `|`; render the table as
`TABLE:` followed by one `col: value; ...` line per non-empty row, or the
`|`-joined headers if no row rendered. Returns `("", i)` when no table
starts at `i`. -/
def parse_table_block (lines : List String) (i : Nat) : String × Nat :=
  if i ≥ lines.length then ("", i)
  else
    let header_line := lines.getD i ""
    if ¬ header_line.data.contains '|' then ("", i)
    else if i + 1 ≥ lines.length then ("", i)
    else if ¬ sepLineOk (lines.getD (i + 1) "") then ("", i)
    else
      let (more, n) := tableRowsAux (lines.drop (i + 2))
      let headers := split_row header_line
      let rows := more.map split_row
      let rendered := rows.filterMap (fun r =>
        let cells := renderRowCells headers r
        if cells = [] then none else some (joinWith "; " cells))
      let rendered := if rendered = [] then [joinWith " | " headers]
        else rendered
      ("TABLE:\n" ++ joinWith "\n" rendered, i + 2 + n)

/-- The collection loop of `_parse_list_block`: list-item starts and indented
continuations are consumed; a blank line is consumed only when the next line
continues the list. Returns the collected lines and how many were consumed. -/
def listCollect : List String → List String × Nat
  | [] => ([], 0)
  | l :: ls =>
    if is_list_item_start l ∨ is_indented_continuation l then
      let (c, n) := listCollect ls
      (l :: c, n + 1)
    else if (pyStrip l).data = [] then
      match ls with
      | [] => ([], 0)
      | l2 :: _ =>
        if is_list_item_start l2 ∨ is_indented_continuation l2 then
          let (c, n) := listCollect ls
          (l :: c, n + 1)
        else ([], 0)
    else ([], 0)

/-- `_parse_list_block`: parse a contiguous list block starting at `i`;
returns the joined block text and the next index (`("", i)` when `i` does not
start a list item). -/
def parse_list_block (lines : List String) (i : Nat) : String × Nat :=
  if i ≥ lines.length ∨ ¬ is_list_item_start (lines.getD i "") then ("", i)
  else
    let (c, n) := listCollect (lines.drop i)
    (joinWith "\n" c, i + n)

/-- Backward scan of `_collect_previous_paragraph`: from index `j - 1`
downward, skip blank lines counting them; the first argument is `j`
(one past the first index examined). Returns the first non-blank index, if
any, and the count of blanks skipped. -/
def backNonBlank (lines : List String) : Nat → Nat → Option Nat × Nat
  | 0, gap => (none, gap)
  | j + 1, gap =>
    if (pyStrip (lines.getD j "")).data = [] then backNonBlank lines j (gap + 1)
    else (some j, gap)

/-- Second backward scan of `_collect_previous_paragraph`: starting at
`k = e - 1` and moving down while lines are non-blank, return the paragraph
start index (the first argument is `e`, the paragraph end index). -/
def paraStartFrom (lines : List String) : Nat → Nat
  | 0 => 0
  | k + 1 =>
    if (pyStrip (lines.getD k "")).data = [] then k + 1
    else paraStartFrom lines k

/-- `_collect_previous_paragraph`: if the list block at `i` is immediately
preceded (ignoring blank lines) by a line that is neither a heading nor a
list-item start, return the contiguous non-blank lines ending there together
with the blank-gap count; otherwise `(none, 0)`. -/
def collect_previous_paragraph (lines : List String) (i : Nat) :
    Option (List String) × Nat :=
  match backNonBlank lines i 0 with
  | (none, _) => (none, 0)
  | (some j, gap) =>
    let lj := lines.getD j ""
    if isHeadingLine lj ∨ is_list_item_start lj then (none, 0)
    else
      let s := paraStartFrom lines j
      (some ((lines.drop s).take (j + 1 - s)), gap)

/-- `_STOPWORDS` of `create_chunks.py` (the Python set literal, duplicates
collapsing). -/
def STOPWORDS : List String :=
  ["the", "and", "for", "with", "that", "this", "these", "those",
   "are", "was", "were", "has", "have", "had", "but", "not",
   "you", "your", "yours", "from", "they", "their", "them",
   "a", "an", "in", "on", "of", "to", "is", "it", "as", "be",
   "by", "or", "if", "we", "our", "us", "at", "can", "could",
   "should", "would", "may", "might", "will", "shall", "do", "does", "did",
   "so", "than", "then", "there", "here", "also", "into", "out", "up", "down",
   "le", "la", "les", "un", "une", "des", "du", "de", "d", "au", "aux",
   "et", "ou", "mais", "ne", "pas", "plus", "pour", "par", "dans", "sur",
   "ce", "cet", "cette", "ces", "se", "sa", "son", "ses", "leur", "leurs",
   "qui", "que", "quoi", "dont", "où", "quand", "comme", "ainsi",
   "est", "sont", "étaient", "était", "été", "être", "a", "ont", "avait",
   "avec", "sans", "entre", "vers", "chez", "sous", "après", "avant"]

/-- The character class of the keyword tokenizer regex
`[A-Za-zÀ-ÖØ-öø-ÿ0-9\-]`. -/
def tokenChar (c : Char) : Bool :=
  ('A' ≤ c ∧ c ≤ 'Z') ∨ ('a' ≤ c ∧ c ≤ 'z') ∨ ('À' ≤ c ∧ c ≤ 'Ö') ∨
    ('Ø' ≤ c ∧ c ≤ 'ö') ∨ ('ø' ≤ c ∧ c ≤ 'ÿ') ∨ ('0' ≤ c ∧ c ≤ '9') ∨ c = '-'

/-- Token multiplicities in first-occurrence order (`collections.Counter`
over a list, reading its keys in insertion order). -/
def tokenCounts (ts : List String) : List (String × Nat) :=
  ts.foldl (fun acc t =>
    if acc.any (fun p => p.1 = t) then
      acc.map (fun p => if p.1 = t then (p.1, p.2 + 1) else p)
    else acc ++ [(t, 1)]) []

/-- Stable descending insertion by key: `x` is placed after every element
whose key is `≥ key x`. -/
def insertDesc {α β : Type} [LinearOrder β] (key : α → β) (x : α) :
    List α → List α
  | [] => [x]
  | y :: ys => if key y < key x then x :: y :: ys else y :: insertDesc key x ys

/-- Stable descending sort by key, modelling Python's stable
`sorted(..., reverse=True)` and `Counter.most_common`. -/
def sortDesc {α β : Type} [LinearOrder β] (key : α → β) (l : List α) : List α :=
  l.foldl (fun acc x => insertDesc key x acc) []

/-- `extract_keywords`: lowercase, tokenize on the letter/digit/hyphen class,
drop short tokens, stopwords and pure numbers, and return the `top_n` most
frequent tokens (ties by first occurrence). -/
def extract_keywords (text : String) (top_n : Nat) : List String :=
  let tokens := runsOf tokenChar (pyLower text).data
  let tokens := tokens.filter (fun t =>
    3 ≤ t.length ∧ ¬ STOPWORDS.contains t ∧ ¬ pyIsDigit t)
  ((sortDesc (fun p => p.2) (tokenCounts tokens)).take top_n).map (fun p => p.1)

/-- The active-heading map, as the sorted level/title list that
`current_headings_meta` produces. -/
abbrev HMap := List (Nat × String)

/-- `headings[level] = title` followed by deleting every deeper level:
levels below survive, the level itself is replaced, deeper levels drop. -/
def setHeading (hs : HMap) (lvl : Nat) (title : String) : HMap :=
  (hs.filter (fun p => p.1 < lvl)) ++ [(lvl, title)]

/-- The active-heading map after scanning a list of source lines: every
heading line updates the map, every other line leaves it. -/
def headingFold (ls : List String) : HMap :=
  ls.foldl (fun hs l =>
    match headingParse l with
    | some (lvl, t) => setHeading hs lvl t
    | none => hs) []

/-- One chunk record (`chunk_id` is rewritten sequentially at the end of
`build_chunks_from_markdown`, so the loop leaves it empty). -/
structure Chunk where
  chunk_id : String
  text : String
  headings : HMap
  keywords : List String
  approx_tokens : Nat
deriving DecidableEq, Repr

/-- `finalize_one` applied to a packed group of blocks: join with newlines,
strip, and record the heading snapshot, keywords and token estimate. The
provisional `chunk_id` the source builds here is dead (it is overwritten by
the sequential renumbering), so it is left empty. -/
def finalizeOne (hs : HMap) (group : List String) : Chunk :=
  let t := pyStrip (joinWith "\n" group)
  { chunk_id := ""
    text := t
    headings := hs
    keywords := extract_keywords t 5
    approx_tokens := estimate_tokens t }

/-- The packing loop of `emit_buffer_as_chunks`: before adding a block, if
the running total plus the block's tokens exceeds the budget and the current
group is non-empty, the group is finalized; the block always joins a group
whole. -/
def packLoop (budget : Nat) : List String → List String → Nat →
    List (List String)
  | [], out, _ => if out = [] then [] else [out]
  | b :: bs, out, approx =>
    let bt := estimate_tokens b
    if out ≠ [] ∧ approx + bt > budget then
      out :: packLoop budget bs [b] bt
    else
      packLoop budget bs (out ++ [b]) (approx + bt)

/-- Greedy packing of buffered blocks into chunk groups. -/
def packBlocks (budget : Nat) (blocks : List String) : List (List String) :=
  packLoop budget blocks [] 0

/-- `emit_buffer_as_chunks`, instrumented with the emission position `i`:
pack the buffered blocks and finalize each group under the current heading
snapshot. -/
def emitBuffer (hs : HMap) (budget : Nat) (buf : List String) (i : Nat) :
    List (Chunk × Nat) :=
  (packBlocks budget buf).map (fun g => (finalizeOne hs g, i))

/-- Pop trailing blank blocks (those whose `strip()` is empty), returning the
remaining buffer and the number popped. -/
def popTrailingBlanks (buf : List String) : List String × Nat :=
  let rev := buf.reverse
  let blanks := rev.takeWhile (fun b => (pyStrip b).data = [])
  ((rev.dropWhile (fun b => (pyStrip b).data = [])).reverse, blanks.length)

/-- The last `n` elements of a list. -/
def takeLast {α : Type} (l : List α) (n : Nat) : List α := l.drop (l.length - n)

/-- All but the last `n` elements of a list. -/
def dropLastN {α : Type} (l : List α) (n : Nat) : List α := l.take (l.length - n)

/-- The main scanning loop of `build_chunks_from_markdown`, instrumented so
every emitted chunk carries the line index at which it was emitted. `fuel`
only bounds the recursion; `build_chunks_from_markdown` supplies more fuel
than lines, and every step consumes at least one line. -/
def chunkLoop (lines : List String) (budget : Nat) :
    Nat → Nat → HMap → List String → List (Chunk × Nat) → List (Chunk × Nat)
  | 0, i, hs, buf, acc => acc ++ emitBuffer hs budget buf i
  | fuel + 1, i, hs, buf, acc =>
    if i ≥ lines.length then acc ++ emitBuffer hs budget buf i
    else
      let line := lines.getD i ""
      match headingParse line with
      | some (lvl, title) =>
        chunkLoop lines budget fuel (i + 1) (setHeading hs lvl title) []
          (acc ++ emitBuffer hs budget buf i)
      | none =>
        let tb := parse_table_block lines i
        if tb.1 ≠ "" then
          chunkLoop lines budget fuel tb.2 hs (buf ++ [tb.1]) acc
        else if is_list_item_start line then
          let lb := parse_list_block lines i
          if lb.1 ≠ "" then
            match collect_previous_paragraph lines i with
            | (some para, gap) =>
              let bp := popTrailingBlanks buf
              if para.length ≤ bp.1.length ∧ takeLast bp.1 para.length = para
              then
                let sep := if gap > 0 then "\n\n" else "\n"
                let combined :=
                  joinWith "\n" para ++ sep ++ lb.1
                chunkLoop lines budget fuel lb.2 hs
                  (dropLastN bp.1 para.length ++ [combined]) acc
              else
                chunkLoop lines budget fuel lb.2 hs
                  ((bp.1 ++ List.replicate bp.2 "") ++ [lb.1]) acc
            | (none, _) =>
              chunkLoop lines budget fuel lb.2 hs (buf ++ [lb.1]) acc
          else
            chunkLoop lines budget fuel (i + 1) hs (buf ++ [line]) acc
        else
          chunkLoop lines budget fuel (i + 1) hs (buf ++ [line]) acc

/-- `build_chunks_from_markdown` instrumented with emission positions,
before the final sequential renumbering. -/
def buildChunksI (md : String) (budget : Nat) : List (Chunk × Nat) :=
  let lines := pySplitlines md
  chunkLoop lines budget (lines.length + 1) 0 [] [] []

/-- The final renumbering pass: `chunk_id = "<stem>-<n>"`, `n` starting
at 1. -/
def renumber (stem : String) (cs : List Chunk) : List Chunk :=
  cs.enum.map (fun p => { p.2 with chunk_id := stem ++ "-" ++ toString (p.1 + 1) })

/-- `build_chunks_from_markdown`. -/
def build_chunks_from_markdown (md : String) (budget : Nat) (source : String) :
    List Chunk :=
  renumber (pathStem source) ((buildChunksI md budget).map Prod.fst)

/-! ## `rerank.py`: the cross-encoder reranker

The cross-encoder (`CrossEncoder.predict`) is external; it is modelled as an
opaque deterministic scoring function passed as a parameter. A retrieved item
is reduced to its `text` plus an opaque `pos` tag standing for all the other
JSON fields that are carried through untouched. -/

/-- A retrieved chunk as read from the results JSONL. -/
structure RItem where
  pos : Nat
  text : String
deriving DecidableEq, Repr

/-- A retrieved chunk after the `reranker` score is attached. -/
structure RankedItem where
  pos : Nat
  text : String
  reranker : Int
deriving DecidableEq, Repr

/-- `rerank`: score every `(question, text)` pair, attach the score under
`reranker`, and sort by the score descending with Python's stable `sorted`. -/
def rerank (score : String → String → Int) (question : String)
    (items : List RItem) : List RankedItem :=
  let scored := items.map (fun it =>
    { pos := it.pos, text := it.text, reranker := score question it.text })
  sortDesc (fun r => r.reranker) scored

/-! ## `update_weaviate.py`: uploading embeddings

The weaviate v4 client is external: `collection.data.insert` stores a fresh
object (it never replaces by any property value). The NDJSON decode loop is
modelled by handing the function the already-parsed records. -/

/-- The `model` object of an embeddings record. -/
structure WModel where
  name : String
  version : String
deriving DecidableEq, Repr

/-- One parsed line of the embeddings NDJSON, with the fields
`upload_embeddings_to_weaviate` reads. -/
structure WRecord where
  chunk_id : String
  text : String
  embedding : List Int
  approx_tokens : Nat
  keywords : List String
  created_at : String
  model : WModel
  headings : List (Nat × String)
  heading : List (Nat × String)
  full_headings : String
deriving DecidableEq, Repr

/-- A stored vector-store object: the written properties plus the named
`"text"` vector. Optional object properties are absent (`none`) rather than
empty. -/
structure WObject where
  chunk_id : String
  text : String
  approx_tokens : Nat
  keywords : List String
  created_at : String
  model : WModel
  headings : Option (List (Nat × String))
  heading : Option (List (Nat × String))
  full_headings : Option String
  vector_text : List Int
deriving DecidableEq, Repr

/-- The per-line body of the upload loop: skip records without a usable main
vector, keep `headings`/`heading` only when non-empty after dropping empty
titles, keep `full_headings` only when non-empty. -/
def insertedObject (item : WRecord) : Option WObject :=
  if item.embedding = [] then none
  else
    let hv := item.headings.filter (fun p => p.2 ≠ "")
    let hv2 := item.heading.filter (fun p => p.2 ≠ "")
    some
      { chunk_id := item.chunk_id
        text := item.text
        approx_tokens := item.approx_tokens
        keywords := item.keywords
        created_at := item.created_at
        model := item.model
        headings := if hv = [] then none else some hv
        heading := if hv2 = [] then none else some hv2
        full_headings :=
          if item.full_headings = "" then none else some item.full_headings
        vector_text := item.embedding }

/-- `upload_embeddings_to_weaviate` against a collection state: with
`recreate` the collection is deleted and recreated empty first; each record
is inserted as a fresh object (`coll.data.insert`); returns the new state and
the inserted count. -/
def upload_embeddings_to_weaviate (recs : List WRecord) (recreate : Bool)
    (store : List WObject) : List WObject × Nat :=
  let st0 := if recreate then [] else store
  let objs := recs.filterMap insertedObject
  (st0 ++ objs, objs.length)

/-- The number of stored objects carrying a given `chunk_id`. -/
def countByChunkId (store : List WObject) (cid : String) : Nat :=
  (store.filter (fun o => o.chunk_id = cid)).length

/-! ## `weaviate_purge.py` and `weaviate_infos.py`

`fetch_objects(limit=1000, ...)` returns the first page of objects; the
weaviate v4 `QueryReturn` carries only `.objects`, so the source's
`getattr(resp, "has_next_page", False)` / `getattr(resp, "cursor", None)` /
`getattr(resp, "next_cursor", None)` / `page_info` probes all hit their
defaults and neither tool ever reads a second page. -/

/-- A stored object as the purge/info tools see it. -/
structure PObj where
  uuid : Nat
  chunk_id : String
deriving DecidableEq, Repr

/-- `coll.query.fetch_objects(limit=n)`: the first `n` objects. -/
def fetch_objects (store : List PObj) (limit : Nat) : List PObj :=
  store.take limit

/-- `getattr(resp, "has_next_page", False)`: the attribute does not exist on
the v4 `QueryReturn`, so the default is returned. -/
def respHasNextPage (_resp : List PObj) : Bool := false

/-- The purge pattern `^<file_name>-(\d+)$` (with `re.escape(file_name)`):
the id is the file name, a dash, and a non-empty digit string. -/
def matchesFilePattern (file_name : String) (cid : String) : Bool :=
  let pre := (file_name ++ "-").data
  cid.data.take pre.length = pre ∧
    (cid.data.drop pre.length ≠ [] ∧ (cid.data.drop pre.length).all Char.isDigit)

/-- `purge_by_filename`: raise (`none`) on an empty file name; fetch the
first page (the pagination loop is dead because `respHasNextPage` is always
false), collect the uuids of matching objects, delete them one by one.
Returns the new store and the deleted count. -/
def purge_by_filename (file_name : String) (store : List PObj) :
    Option (List PObj × Nat) :=
  if file_name = "" then none
  else
    let resp := fetch_objects store 1000
    let toDelete := (resp.filter (fun o =>
      matchesFilePattern file_name o.chunk_id)).map (fun o => o.uuid)
    let store2 := store.filter (fun o => ¬ toDelete.contains o.uuid)
    some (store2, toDelete.length)

/-- `_file_from_chunk_id` via `^(?P<file>.+)-(?P<index>\d+)$`: strip the
maximal trailing digit run, require it non-empty, require a dash before it,
require a non-empty file part. -/
def fileFromChunkId (cid : String) : Option String :=
  let r := cid.data.reverse
  let ds := r.takeWhile Char.isDigit
  match r.dropWhile Char.isDigit with
  | '-' :: f => if ds ≠ [] ∧ f ≠ [] then some (String.mk f.reverse) else none
  | _ => none

/-- `collect_counts`, total: only the first page is ever read (the cursor
probes return `None`, so the loop breaks after one iteration). -/
def collect_counts_total (store : List PObj) : Nat :=
  (fetch_objects store 1000).length

/-- `collect_counts`, per-file count for one stem, over the single page the
tool reads. -/
def collect_counts_for (store : List PObj) (file : String) : Nat :=
  ((fetch_objects store 1000).filter (fun o =>
    fileFromChunkId o.chunk_id = some file)).length

/-! ## `create_embeddings.py`: the embedding layer and its cache

`SentenceTransformer.encode` is external and is modelled as an opaque
deterministic function `f : String → Vec`. SHA-256 cache keys are modelled by
their preimage payloads `name ++ "\n" ++ version ++ "\n" ++ text` (the hash
is injective in the model). The cache file is the parsed list of its
`{"k": ..., "v": ...}` lines in order. -/

/-- An embedding vector (float values are opaque to the pipeline; the model
uses integers). -/
abbrev Vec := List Int

/-- The parsed cache file: one `(key, vector)` entry per line, in file
order. -/
abbrev CacheFile := List (String × Vec)

/-- The in-memory cache map, as an association list without duplicate
keys. -/
abbrev CacheMap := List (String × Vec)

/-- Lookup in the in-memory cache. -/
def mapLookup (m : CacheMap) (k : String) : Option Vec :=
  match m.find? (fun p => p.1 == k) with
  | some p => some p.2
  | none => none

/-- `emb_cache[k] = v`: overwrite an existing key or append a fresh one. -/
def mapInsert (m : CacheMap) (k : String) (v : Vec) : CacheMap :=
  if m.any (fun p => p.1 == k) then
    m.map (fun p => if p.1 == k then (k, v) else p)
  else m ++ [(k, v)]

/-- Replaying the cache file into the in-memory map (duplicate keys: last
write wins). -/
def loadCache (file : CacheFile) : CacheMap :=
  file.foldl (fun m p => mapInsert m p.1 p.2) []

/-- `_cache_key`: the SHA-256 payload
`model_name ++ "\n" ++ version ++ "\n" ++ text`. -/
def cacheKey (mname mver text : String) : String :=
  mname ++ "\n" ++ mver ++ "\n" ++ text

/-- The cache/file/call-count state threaded through the batches. `calls`
counts invocations of the backend `model.encode`. -/
structure CState where
  map : CacheMap
  file : CacheFile
  calls : Nat
deriving Repr

/-- Resolve each text whose pre-batch lookup missed: compute it, store it in
the map and append it to the file, in position order (duplicate texts in one
batch are computed and appended once per occurrence, as in the source). -/
def fillGo (f : String → Vec) (key : String → String) :
    List (String × Option Vec) → CacheMap → CacheFile →
      List Vec × CacheMap × CacheFile
  | [], m, fl => ([], m, fl)
  | (_, some v) :: rest, m, fl =>
    let r := fillGo f key rest m fl
    (v :: r.1, r.2.1, r.2.2)
  | (t, none) :: rest, m, fl =>
    let v := f t
    let r := fillGo f key rest (mapInsert m (key t) v) (fl ++ [(key t, v)])
    (v :: r.1, r.2.1, r.2.2)

/-- The cache-resolution pattern `flush_batch` applies to the chunk texts
and again to the heading titles: look every text up against the pre-batch
map, call the backend once if anything missed, persist the new entries. -/
def fillBatch (f : String → Vec) (key : String → String) (st : CState)
    (texts : List String) : List Vec × CState :=
  let lookups := texts.map (fun t => (t, mapLookup st.map (key t)))
  let r := fillGo f key lookups st.map st.file
  (r.1,
    { map := r.2.1
      file := r.2.2
      calls := st.calls + (if lookups.any (fun p => p.2.isNone) then 1 else 0) })

/-- Stable ascending insertion by key. -/
def insertAsc {α β : Type} [LinearOrder β] (key : α → β) (x : α) :
    List α → List α
  | [] => [x]
  | y :: ys => if key x < key y then x :: y :: ys else y :: insertAsc key x ys

/-- Stable ascending sort by key (Python's stable `sorted`). -/
def sortAsc {α β : Type} [LinearOrder β] (key : α → β) (l : List α) : List α :=
  l.foldl (fun acc x => insertAsc key x acc) []

/-- A parsed chunks-JSONL row, with the fields `convert_chunks_to_embeddings`
reads (heading keys `"hN"` are stored parsed as levels). -/
structure CRow where
  chunk_id : String
  text : String
  approx_tokens : Nat
  keywords : List String
  headings : List (Nat × String)
deriving DecidableEq, Repr

/-- The `ordered_pairs` of `flush_batch`: headings with non-blank titles,
sorted by level. -/
def orderedHeadings (hs : List (Nat × String)) : List (Nat × String) :=
  sortAsc (fun p => p.1) (hs.filter (fun p => (pyStrip p.2).data ≠ []))

/-- Distribute the flat heading vectors back to their rows by the per-row
heading counts. -/
def redistribute : List (List (Nat × String)) → List Vec →
    List (List (Nat × Vec))
  | [], _ => []
  | g :: gs, vs =>
    ((g.map Prod.fst).zip (vs.take g.length)) :: redistribute gs (vs.drop g.length)

/-- One output line of the embeddings NDJSON. -/
structure ERec where
  chunk_id : String
  text : String
  embedding : Vec
  hembs : List (Nat × Vec)
  model_name : String
  model_version : String
  created_at : String
  approx_tokens : Nat
  keywords : List String
  headings : List (Nat × String)
deriving DecidableEq, Repr

/-- `flush_batch`: resolve the chunk-text embeddings through the cache, then
(when heading embeddings are enabled) resolve the flattened heading titles
the same way, and emit one record per row. -/
def flushBatch (f : String → Vec) (incH : Bool) (mn mv created : String)
    (st : CState) (rows : List CRow) : List ERec × CState :=
  let key := cacheKey mn mv
  let texts := rows.map (fun r => r.text)
  let tres := fillBatch f key st texts
  let perRow : List (List (Nat × String)) :=
    if incH then rows.map (fun r => orderedHeadings r.headings)
    else rows.map (fun _ => [])
  let hres :=
    if incH then fillBatch f key tres.2 ((perRow.flatten).map Prod.snd)
    else ([], tres.2)
  let hembRows := redistribute perRow hres.1
  let recs := (rows.zip (tres.1.zip hembRows)).map (fun p =>
    { chunk_id := p.1.chunk_id
      text := p.1.text
      embedding := p.2.1
      hembs := p.2.2
      model_name := mn
      model_version := mv
      created_at := created
      approx_tokens := p.1.approx_tokens
      keywords := p.1.keywords
      headings := p.1.headings })
  (recs, hres.2)

/-- The streaming loop of `convert_chunks_to_embeddings`: accumulate rows,
flush every 64, flush the remainder at end of input. -/
def convertGo (f : String → Vec) (incH : Bool) (mn mv created : String) :
    List CRow → List CRow → CState → List ERec → List ERec × CState
  | batch, [], st, outs =>
    let r := flushBatch f incH mn mv created st batch
    (outs ++ r.1, r.2)
  | batch, r :: rs, st, outs =>
    let batch2 := batch ++ [r]
    if 64 ≤ batch2.length then
      let fr := flushBatch f incH mn mv created st batch2
      convertGo f incH mn mv created [] rs fr.2 (outs ++ fr.1)
    else convertGo f incH mn mv created batch2 rs st outs

/-- `convert_chunks_to_embeddings` over parsed rows: load the cache file,
stream the rows in batches, and return the emitted records, the final cache
file and the number of backend encode calls. -/
def convert_chunks_to_embeddings (f : String → Vec) (incH : Bool)
    (mn mv created : String) (cache0 : CacheFile) (rows : List CRow) :
    List ERec × CacheFile × Nat :=
  let st0 : CState := { map := loadCache cache0, file := cache0, calls := 0 }
  let r := convertGo f incH mn mv created [] rows st0 []
  (r.1, r.2.file, r.2.calls)

/-! ## Lemmas about the stable descending sort -/

lemma insertDesc_perm {α β : Type} [LinearOrder β] (key : α → β) (x : α) :
    ∀ l : List α, (insertDesc key x l).Perm (x :: l)
  | [] => List.Perm.refl _
  | y :: ys => by
    unfold insertDesc
    by_cases h : key y < key x
    · simp [h]
    · simp only [if_neg h]
      exact ((insertDesc_perm key x ys).cons y).trans (List.Perm.swap x y ys)

lemma sortDesc_append_singleton {α β : Type} [LinearOrder β] (key : α → β)
    (l : List α) (x : α) :
    sortDesc key (l ++ [x]) = insertDesc key x (sortDesc key l) := by
  simp [sortDesc, List.foldl_append]

lemma sortDesc_perm {α β : Type} [LinearOrder β] (key : α → β) (l : List α) :
    (sortDesc key l).Perm l := by
  induction l using List.reverseRecOn with
  | nil => exact List.Perm.refl _
  | append_singleton l x ih =>
    rw [sortDesc_append_singleton]
    exact ((insertDesc_perm key x _).trans (ih.cons x)).trans
      (List.perm_append_singleton x l).symm

lemma pairwise_of_mem_le {α β : Type} [LinearOrder β] (key : α → β)
    {y : α} {ys : List α} (hp : List.Pairwise (fun a b => key b ≤ key a) (y :: ys)) :
    ∀ a ∈ ys, key a ≤ key y := by
  intro a ha
  exact (List.pairwise_cons.mp hp).1 a ha

lemma insertDesc_pairwise {α β : Type} [LinearOrder β] (key : α → β) (x : α) :
    ∀ {l : List α}, List.Pairwise (fun a b => key b ≤ key a) l →
      List.Pairwise (fun a b => key b ≤ key a) (insertDesc key x l)
  | [], _ => List.pairwise_singleton _ _
  | y :: ys, hp => by
    unfold insertDesc
    by_cases h : key y < key x
    · simp only [if_pos h]
      refine List.pairwise_cons.mpr ⟨?_, hp⟩
      intro a ha
      rcases List.mem_cons.mp ha with rfl | ha
      · exact le_of_lt h
      · exact le_trans (pairwise_of_mem_le key hp a ha) (le_of_lt h)
    · simp only [if_neg h]
      refine List.pairwise_cons.mpr ⟨?_, insertDesc_pairwise key x (List.pairwise_cons.mp hp).2⟩
      intro a ha
      rcases List.mem_cons.mp ((insertDesc_perm key x ys).mem_iff.mp ha) with rfl | ha
      · exact le_of_not_lt h
      · exact pairwise_of_mem_le key hp a ha

lemma sortDesc_pairwise {α β : Type} [LinearOrder β] (key : α → β) (l : List α) :
    List.Pairwise (fun a b => key b ≤ key a) (sortDesc key l) := by
  induction l using List.reverseRecOn with
  | nil => exact List.Pairwise.nil
  | append_singleton l x ih =>
    rw [sortDesc_append_singleton]
    exact insertDesc_pairwise key x ih

lemma insertDesc_filter_of_ne {α β : Type} [LinearOrder β] (key : α → β)
    (x : α) (s : β) (hx : key x ≠ s) :
    ∀ l : List α, (insertDesc key x l).filter (fun a => decide (key a = s)) =
      l.filter (fun a => decide (key a = s))
  | [] => by simp [insertDesc, hx]
  | y :: ys => by
    unfold insertDesc
    by_cases h : key y < key x
    · simp [h, List.filter_cons, hx]
    · simp only [if_neg h, List.filter_cons]
      rw [insertDesc_filter_of_ne key x s hx ys]

lemma insertDesc_filter_of_eq {α β : Type} [LinearOrder β] (key : α → β)
    (x : α) (s : β) (hx : key x = s) :
    ∀ l : List α, List.Pairwise (fun a b => key b ≤ key a) l →
      (insertDesc key x l).filter (fun a => decide (key a = s)) =
        l.filter (fun a => decide (key a = s)) ++ [x]
  | [], _ => by simp [insertDesc, hx]
  | y :: ys, hp => by
    unfold insertDesc
    by_cases h : key y < key x
    · simp only [if_pos h]
      have hxy : key y < s := by rw [← hx]; exact h
      have hys : (y :: ys).filter (fun a => decide (key a = s)) = [] := by
        rw [List.filter_eq_nil_iff]
        intro a ha
        rcases List.mem_cons.mp ha with rfl | ha
        · simp [ne_of_lt hxy]
        · have h1 : key a ≤ key y := pairwise_of_mem_le key hp a ha
          simp [ne_of_lt (lt_of_le_of_lt h1 hxy)]
      rw [List.filter_cons]
      simp [hx, hys]
    · simp only [if_neg h, List.filter_cons]
      rw [insertDesc_filter_of_eq key x s hx ys (List.pairwise_cons.mp hp).2]
      by_cases hy : key y = s <;> simp [hy]

lemma sortDesc_filter {α β : Type} [LinearOrder β] (key : α → β) (l : List α)
    (s : β) :
    (sortDesc key l).filter (fun a => decide (key a = s)) =
      l.filter (fun a => decide (key a = s)) := by
  induction l using List.reverseRecOn with
  | nil => simp [sortDesc]
  | append_singleton l x ih =>
    rw [sortDesc_append_singleton]
    by_cases hx : key x = s
    · rw [insertDesc_filter_of_eq key x s hx _ (sortDesc_pairwise key l), ih,
        List.filter_append]
      simp [hx]
    · rw [insertDesc_filter_of_ne key x s hx, ih, List.filter_append]
      simp [hx]

/-! ## Lemmas about greedy packing -/

/-- The token total of a group of blocks. -/
def sumTokens (g : List String) : Nat := (g.map estimate_tokens).sum

lemma sumTokens_append_singleton (g : List String) (b : String) :
    sumTokens (g ++ [b]) = sumTokens g + estimate_tokens b := by
  simp [sumTokens]

lemma packLoop_flatten (budget : Nat) :
    ∀ (bs out : List String) (approx : Nat),
      (packLoop budget bs out approx).flatten = out ++ bs
  | [], out, approx => by
    by_cases h : out = [] <;> simp [packLoop, h]
  | b :: bs, out, approx => by
    unfold packLoop
    by_cases h : out ≠ [] ∧ approx + estimate_tokens b > budget
    · simp only [if_pos h, List.flatten_cons, packLoop_flatten budget bs]
      simp
    · simp only [if_neg h, packLoop_flatten budget bs]
      simp

lemma packLoop_ne_nil (budget : Nat) :
    ∀ (bs out : List String) (approx : Nat),
      ∀ g ∈ packLoop budget bs out approx, g ≠ []
  | [], out, approx => by
    by_cases h : out = [] <;> simp_all [packLoop]
  | b :: bs, out, approx => by
    unfold packLoop
    by_cases h : out ≠ [] ∧ approx + estimate_tokens b > budget
    · simp only [if_pos h]
      intro g hg
      rcases List.mem_cons.mp hg with rfl | hg
      · exact h.1
      · exact packLoop_ne_nil budget bs [b] _ g hg
    · simp only [if_neg h]
      intro g hg
      exact packLoop_ne_nil budget bs (out ++ [b]) _ g hg

lemma packLoop_head (budget : Nat) :
    ∀ (bs out : List String) (approx : Nat), out ≠ [] →
      ∀ g ∈ (packLoop budget bs out approx).head?, g.headD "" = out.headD ""
  | [], out, approx => by
    intro hne
    simp [packLoop, hne]
  | b :: bs, out, approx => by
    intro hne
    unfold packLoop
    by_cases h : out ≠ [] ∧ approx + estimate_tokens b > budget
    · simp [if_pos h]
    · simp only [if_neg h]
      intro g hg
      have := packLoop_head budget bs (out ++ [b]) (approx + estimate_tokens b)
        (by simp) g hg
      rw [this]
      rcases out with _ | ⟨o, os⟩
      · exact absurd rfl hne
      · simp

lemma packLoop_chain (budget : Nat) :
    ∀ (bs out : List String) (approx : Nat), approx = sumTokens out →
      List.Chain'
        (fun g g' => budget < sumTokens g + estimate_tokens (g'.headD ""))
        (packLoop budget bs out approx)
  | [], out, approx => by
    intro h
    by_cases hn : out = [] <;> simp [packLoop, hn]
  | b :: bs, out, approx => by
    intro h
    unfold packLoop
    by_cases hc : out ≠ [] ∧ approx + estimate_tokens b > budget
    · simp only [if_pos hc]
      refine List.chain'_cons'.mpr ⟨?_, packLoop_chain budget bs [b] _ (by simp [sumTokens])⟩
      intro g hg
      have hh := packLoop_head budget bs [b] (estimate_tokens b) (by simp) g hg
      rw [hh]
      simpa [← h] using hc.2
    · simp only [if_neg hc]
      exact packLoop_chain budget bs (out ++ [b]) _
        (by rw [sumTokens_append_singleton, h])

/-- Condition (4) of greedy packing, for one group: no non-initial block of
the group would have forced a flush when it was added. -/
def groupPrefixOk (budget : Nat) (g : List String) : Prop :=
  ∀ k, 0 < k → k < g.length →
    sumTokens (g.take k) + estimate_tokens (g.getD k "") ≤ budget

lemma groupPrefixOk_push {budget : Nat} {out : List String} {b : String}
    (hout : groupPrefixOk budget out)
    (hc : ¬ (out ≠ [] ∧ sumTokens out + estimate_tokens b > budget)) :
    groupPrefixOk budget (out ++ [b]) := by
  intro k hk0 hk
  rcases lt_or_ge k out.length with hlt | hge
  · rw [List.take_append_of_le_length (le_of_lt hlt),
      List.getD_append _ _ _ _ hlt]
    exact hout k hk0 hlt
  · have hkeq : k = out.length := by
      have : k < out.length + 1 := by simpa using hk
      omega
    subst hkeq
    rw [List.take_append_of_le_length (le_refl _), List.take_length,
      List.getD_append_right _ _ _ _ (le_refl _)]
    simp only [Nat.sub_self, List.getD_cons_zero]
    have hne : out ≠ [] := by
      intro hnil
      rw [hnil] at hk0
      simp at hk0
    rcases not_and_or.mp hc with h | h
    · exact absurd hne (by simpa using h)
    · omega

lemma packLoop_prefixOk (budget : Nat) :
    ∀ (bs out : List String) (approx : Nat), approx = sumTokens out →
      groupPrefixOk budget out →
      ∀ g ∈ packLoop budget bs out approx, groupPrefixOk budget g
  | [], out, approx => by
    intro _ hout g hg
    by_cases hn : out = [] <;> simp_all [packLoop]
  | b :: bs, out, approx => by
    intro h hout g hg
    unfold packLoop at hg
    by_cases hc : out ≠ [] ∧ approx + estimate_tokens b > budget
    · simp only [if_pos hc] at hg
      rcases List.mem_cons.mp hg with rfl | hg
      · exact hout
      · refine packLoop_prefixOk budget bs [b] _ (by simp [sumTokens]) ?_ g hg
        intro k hk0 hk
        simp at hk
        omega
    · simp only [if_neg hc] at hg
      exact packLoop_prefixOk budget bs (out ++ [b]) _
        (by rw [sumTokens_append_singleton, h])
        (groupPrefixOk_push hout (by rwa [h] at hc)) g hg

/-! ## Shape of the chunks the scanning loop emits -/

lemma emitBuffer_shape (hs : HMap) (budget : Nat) (buf : List String) (i : Nat) :
    ∀ p ∈ emitBuffer hs budget buf i, ∃ h g, p.1 = finalizeOne h g := by
  intro p hp
  rcases List.mem_map.mp hp with ⟨g, _, rfl⟩
  exact ⟨hs, g, rfl⟩

lemma chunkLoop_shape (lines : List String) (budget : Nat) :
    ∀ (fuel i : Nat) (hs : HMap) (buf : List String) (acc : List (Chunk × Nat)),
      (∀ p ∈ acc, ∃ h g, p.1 = finalizeOne h g) →
      ∀ p ∈ chunkLoop lines budget fuel i hs buf acc, ∃ h g, p.1 = finalizeOne h g
  | 0, i, hs, buf, acc => by
    intro hacc p hp
    rw [chunkLoop] at hp
    rcases List.mem_append.mp hp with h | h
    · exact hacc p h
    · exact emitBuffer_shape hs budget buf i p h
  | fuel + 1, i, hs, buf, acc => by
    intro hacc p hp
    rw [chunkLoop] at hp
    have hemit : ∀ q ∈ acc ++ emitBuffer hs budget buf i,
        ∃ h g, q.1 = finalizeOne h g := by
      intro q hq
      rcases List.mem_append.mp hq with h | h
      · exact hacc q h
      · exact emitBuffer_shape hs budget buf i q h
    by_cases hlen : i ≥ lines.length
    · rw [if_pos hlen] at hp
      exact hemit p hp
    · rw [if_neg hlen] at hp
      simp only [] at hp
      split at hp
      · exact chunkLoop_shape lines budget fuel _ _ _ _ hemit p hp
      · split at hp
        · exact chunkLoop_shape lines budget fuel _ _ _ _ hacc p hp
        · split at hp
          · split at hp
            · split at hp
              · split at hp
                · exact chunkLoop_shape lines budget fuel _ _ _ _ hacc p hp
                · exact chunkLoop_shape lines budget fuel _ _ _ _ hacc p hp
              · exact chunkLoop_shape lines budget fuel _ _ _ _ hacc p hp
            · exact chunkLoop_shape lines budget fuel _ _ _ _ hacc p hp
          · exact chunkLoop_shape lines budget fuel _ _ _ _ hacc p hp

/-! ## Claim theorems -/

/-- C2: buffered blocks are packed greedily. The groups `packBlocks` forms
concatenate back to the block list in order (so every block — in particular
every list block, which enters the buffer as a single block — lands in
exactly one chunk, whole, even when its own size exceeds the budget); every
group is non-empty; a group is closed exactly when the next block would push
it past the budget: consecutive groups always overflow (`Chain'`), and no
non-initial block within a group would have overflowed when it was added
(`groupPrefixOk`). -/
theorem c2_packing_greedy_blocks_intact :
    ∀ (budget : Nat) (blocks : List String),
      (packBlocks budget blocks).flatten = blocks ∧
      (∀ g ∈ packBlocks budget blocks, g ≠ []) ∧
      List.Chain'
        (fun g g' => budget < sumTokens g + estimate_tokens (g'.headD ""))
        (packBlocks budget blocks) ∧
      (∀ g ∈ packBlocks budget blocks, groupPrefixOk budget g) := by
  intro budget blocks
  refine ⟨?_, ?_, ?_, ?_⟩
  · simpa using packLoop_flatten budget blocks [] 0
  · exact packLoop_ne_nil budget blocks [] 0
  · exact packLoop_chain budget blocks [] 0 (by simp [sumTokens])
  · exact packLoop_prefixOk budget blocks [] 0 (by simp [sumTokens])
      (by intro k hk0 hk; simp at hk)

/-- Witness for C2 at a concrete budget and block list. -/
theorem c2_packing_witness :
    (packBlocks 3 ["aa bb", "cc dd ee", "f"]).flatten = ["aa bb", "cc dd ee", "f"] ∧
      (∀ g ∈ packBlocks 3 ["aa bb", "cc dd ee", "f"], g ≠ []) ∧
      List.Chain'
        (fun g g' => 3 < sumTokens g + estimate_tokens (g'.headD ""))
        (packBlocks 3 ["aa bb", "cc dd ee", "f"]) ∧
      (∀ g ∈ packBlocks 3 ["aa bb", "cc dd ee", "f"], groupPrefixOk 3 g) :=
  c2_packing_greedy_blocks_intact 3 ["aa bb", "cc dd ee", "f"]

/-- C9: `rerank` returns exactly the input items with the cross-encoder score
attached under `reranker` (a permutation of the scored input, so no text is
changed or truncated), sorted by that score in descending order, and stably:
for every score value, the items carrying it appear in their original
retrieval order. -/
theorem c9_rerank_sorted_stable :
    ∀ (score : String → String → Int) (question : String) (items : List RItem),
      (rerank score question items).Perm
        (items.map (fun it =>
          ({ pos := it.pos, text := it.text,
             reranker := score question it.text } : RankedItem))) ∧
      List.Pairwise (fun a b => b.reranker ≤ a.reranker)
        (rerank score question items) ∧
      (∀ s : Int,
        (rerank score question items).filter (fun r => decide (r.reranker = s)) =
          (items.map (fun it =>
            ({ pos := it.pos, text := it.text,
               reranker := score question it.text } : RankedItem))).filter
            (fun r => decide (r.reranker = s))) := by
  intro score question items
  unfold rerank
  exact ⟨sortDesc_perm _ _, sortDesc_pairwise _ _, fun s => sortDesc_filter _ _ s⟩

/-- A concrete item list for the C9 witness. -/
def c9Items : List RItem := [⟨0, "aa"⟩, ⟨1, "b"⟩, ⟨2, "cc"⟩]

/-- A concrete scorer for the C9 witness. -/
def c9Score (q t : String) : Int := (q.length : Int) + (t.length : Int)

/-- Witness for C9 at a concrete scorer, question and item list. -/
theorem c9_rerank_witness :
    (rerank c9Score "q" c9Items).Perm
        (c9Items.map (fun it =>
          ({ pos := it.pos, text := it.text,
             reranker := c9Score "q" it.text } : RankedItem))) ∧
      List.Pairwise (fun a b => b.reranker ≤ a.reranker)
        (rerank c9Score "q" c9Items) ∧
      (∀ s : Int,
        (rerank c9Score "q" c9Items).filter (fun r => decide (r.reranker = s)) =
          (c9Items.map (fun it =>
            ({ pos := it.pos, text := it.text,
               reranker := c9Score "q" it.text } : RankedItem))).filter
            (fun r => decide (r.reranker = s))) :=
  c9_rerank_sorted_stable c9Score "q" c9Items

/-- C10: the chunker does emit a chunk with empty text: on a document whose
body under the heading consists only of blank lines, the blank lines are
buffered as blocks and the emitted chunk has `text = ""` and
`approx_tokens = 0`. -/
theorem c10_empty_text_chunk :
    build_chunks_from_markdown "# A\n\n\n" 200 "A.md" =
      [{ chunk_id := "A-1", text := "", headings := [(1, "A")], keywords := [],
         approx_tokens := 0 }] := by decide

/-- C3 (failing input): with budget 3 on `"# T\npp pp pp\n- li"`, the
paragraph `pp pp pp` immediately precedes the list `- li` with no blank or
heading between them, yet the chunker emits them in two distinct chunks: the
backward paragraph scan slurps the heading line (no blank line separates
`# T` from the paragraph), the buffer-tail match then fails, the paragraph
and the list stay separate blocks, and the packer splits them. -/
theorem c3_paragraph_list_separated :
    (build_chunks_from_markdown "# T\npp pp pp\n- li" 3 "d.md").map Chunk.text =
      ["pp pp pp", "- li"] := by decide

/-- C1 (counterexample): a produced chunk can contain heading lines in its
text. Finalization strips leading whitespace, so the line `  # A` (not a
heading, it starts with spaces) becomes the heading line `# A`; and the table
renderer builds the line `# H: v` from a header cell `# H` and a row value.
The single produced chunk contains both heading-pattern lines. -/
theorem c1_counterexample_heading_in_text :
    ((build_chunks_from_markdown "  # A\n\na|# H\n---|---\n| |v\n" 200
        "doc.md").map Chunk.text = ["# A\n\nTABLE:\n# H: v"]) ∧
      (linesOf "# A\n\nTABLE:\n# H: v").filter isHeadingLine =
        ["# A", "# H: v"] := by decide

/-- C7 (counterexample): `approx_tokens` is the plain word count, not the
words × 4/3 estimate: the chunk for `"a b c"` has 3 words and
`approx_tokens = 3`, while 3 × 4/3 = 4. -/
theorem c7_counterexample_no_four_thirds :
    (build_chunks_from_markdown "a b c" 200 "d.md").map Chunk.approx_tokens =
        [3] ∧
      (build_chunks_from_markdown "a b c" 200 "d.md").map
          (fun c => (pyWords c.text).length) = [3] ∧
      3 * 4 / 3 = 4 ∧ (3 : Nat) ≠ 4 := by decide

/-- C7 (amended): for every Markdown input, budget and source, every emitted
chunk's `approx_tokens` equals the whitespace-separated word count of the
chunk's final text (a non-negative integer by construction). -/
theorem c7_amended_approx_tokens_word_count :
    ∀ (md : String) (budget : Nat) (source : String),
      ∀ c ∈ build_chunks_from_markdown md budget source,
        c.approx_tokens = (pyWords c.text).length := by
  intro md budget source c hc
  unfold build_chunks_from_markdown renumber at hc
  rcases List.mem_map.mp hc with ⟨q, hq, rfl⟩
  have hq2 : q.2 ∈ (buildChunksI md budget).map Prod.fst := by
    have h0 : ((buildChunksI md budget).map Prod.fst).enum.map Prod.snd =
        (buildChunksI md budget).map Prod.fst := List.enum_map_snd _
    rw [← h0]
    exact List.mem_map_of_mem Prod.snd hq
  rcases List.mem_map.mp hq2 with ⟨p, hp, hpq⟩
  rcases chunkLoop_shape _ budget _ _ _ _ _ (by intro q hq; simp at hq) p hp
    with ⟨h, g, hfin⟩
  have : q.2 = finalizeOne h g := by rw [← hpq, hfin]
  rw [this]
  rfl

/-- The chunk produced from `"a b c"`, for the C7 witness. -/
def c7Chunk : Chunk :=
  { chunk_id := "d-1", text := "a b c", headings := [], keywords := [],
    approx_tokens := 3 }

/-- Witness for C7 (amended) at the concrete input `"a b c"`. -/
theorem c7_amended_witness :
    c7Chunk.approx_tokens = (pyWords c7Chunk.text).length :=
  c7_amended_approx_tokens_word_count "a b c" 200 "d.md" c7Chunk (by decide)

/-- C8 (counterexample): the keyword extractor as called by the pipeline
(`top_n = 5`) never returns 6–8 keyphrases — here it returns exactly 5 even
though 7 distinct candidates exist — and a returned keyphrase (`1-2`) has
concatenated alphabetic length 0 < 3 (only its total character length is
checked, and `1-2` is not `isdigit`). -/
theorem c8_counterexample_five_keywords :
    extract_keywords
        "one-token two-token three-token four-token five-token six-token 1-2 1-2 1-2"
        5 =
        ["1-2", "one-token", "two-token", "three-token", "four-token"] ∧
      ¬ 6 ≤ (["1-2", "one-token", "two-token", "three-token",
          "four-token"] : List String).length ∧
      (("1-2" : String).data.filter Char.isAlpha).length < 3 := by decide

/-- A record with a non-empty embedding, used for the C4 counterexample. -/
def c4DupRecord : WRecord :=
  { chunk_id := "a-1", text := "t", embedding := [1], approx_tokens := 1,
    keywords := [], created_at := "2026-01-01T00:00:00Z",
    model := { name := "m", version := "1" }, headings := [], heading := [],
    full_headings := "" }

/-- C4 (counterexample): uploading two records with the same `chunk_id` into
the same (freshly created) collection leaves two objects with that
`chunk_id`: the upload uses plain `insert`, not an upsert keyed by
`chunk_id`. -/
theorem c4_counterexample_duplicate_objects :
    countByChunkId
        (upload_embeddings_to_weaviate [c4DupRecord, c4DupRecord] true []).1
        "a-1" = 2 ∧
      (2 : Nat) ≠ 1 := by decide

lemma filterMap_inserted_count (cid : String) :
    ∀ recs : List WRecord,
      ((recs.filterMap insertedObject).filter
          (fun o => decide (o.chunk_id = cid))).length =
        (recs.filter (fun r =>
          decide (r.embedding ≠ []) && decide (r.chunk_id = cid))).length
  | [] => rfl
  | r :: rs => by
    rw [List.filterMap_cons, List.filter_cons]
    by_cases he : r.embedding = []
    · have h1 : insertedObject r = none := by simp [insertedObject, he]
      rw [h1]
      simp [he, List.filter_cons, filterMap_inserted_count cid rs]
    · rw [insertedObject, if_neg he]
      by_cases hc : r.chunk_id = cid
      · simp [List.filter_cons, hc, he, filterMap_inserted_count cid rs]
      · simp [List.filter_cons, hc, he, filterMap_inserted_count cid rs]

/-- C4 (amended): the upload inserts a fresh object per record with a
non-empty embedding and never replaces by `chunk_id`: the number of objects
with a given `chunk_id` after the upload is the count in the starting state
(empty when the collection is recreated) plus the number of uploaded records
carrying that `chunk_id` with a usable vector. Uniqueness of `chunk_id` is
not enforced by the store. -/
theorem c4_amended_insert_appends :
    ∀ (recs : List WRecord) (store : List WObject) (recreate : Bool)
      (cid : String),
      countByChunkId (upload_embeddings_to_weaviate recs recreate store).1 cid =
        countByChunkId (if recreate then [] else store) cid +
          (recs.filter (fun r =>
            decide (r.embedding ≠ []) && decide (r.chunk_id = cid))).length := by
  intro recs store recreate cid
  unfold upload_embeddings_to_weaviate countByChunkId
  simp only [List.filter_append, List.length_append]
  rw [filterMap_inserted_count]

/-- Witness for C4 (amended) at concrete records and store. -/
theorem c4_amended_witness :
    countByChunkId
        (upload_embeddings_to_weaviate [c4DupRecord, c4DupRecord] false []).1
        "a-1" =
      countByChunkId (if false then [] else []) "a-1" +
        ([c4DupRecord, c4DupRecord].filter (fun r =>
          decide (r.embedding ≠ []) && decide (r.chunk_id = "a-1"))).length :=
  c4_amended_insert_appends [c4DupRecord, c4DupRecord] [] false "a-1"

/-! ## Lemmas for the amended keyword-extractor claim -/

lemma toNat_ofNat_valid (n : Nat) (h : n < 55296) : (Char.ofNat n).toNat = n := by
  have hv : n.isValidChar := Or.inl h
  simp only [Char.ofNat, hv, dif_pos, Char.ofNatAux, Char.toNat, UInt32.toNat]
  rfl

lemma charLe_iff_toNat {a b : Char} : a ≤ b ↔ a.toNat ≤ b.toNat := by
  rw [Char.le_def, UInt32.le_def, BitVec.le_def]
  exact Iff.rfl

lemma charNe_of_toNat_ne {a b : Char} (h : a.toNat ≠ b.toNat) : a ≠ b :=
  fun he => h (congrArg Char.toNat he)

lemma pyLowerChar_idem (c : Char) : pyLowerChar (pyLowerChar c) = pyLowerChar c := by
  unfold pyLowerChar
  by_cases h1 : 'A' ≤ c ∧ c ≤ 'Z'
  · rw [if_pos h1]
    have hle : 65 ≤ c.toNat := by
      have h := charLe_iff_toNat.mp h1.1
      simpa using h
    have hge : c.toNat ≤ 90 := by
      have h := charLe_iff_toNat.mp h1.2
      simpa using h
    have ht : (Char.ofNat (c.toNat + 32)).toNat = c.toNat + 32 :=
      toNat_ofNat_valid _ (by omega)
    rw [if_neg, if_neg]
    · intro h2
      have h := charLe_iff_toNat.mp h2.1
      rw [ht] at h
      simp at h
      omega
    · intro h2
      have h := charLe_iff_toNat.mp h2.2
      rw [ht] at h
      simp at h
      omega
  · rw [if_neg h1]
    by_cases h2 : 'À' ≤ c ∧ c ≤ 'Þ' ∧ c ≠ '×'
    · rw [if_pos h2]
      have hle : 192 ≤ c.toNat := by
        have h := charLe_iff_toNat.mp h2.1
        simpa using h
      have hge : c.toNat ≤ 222 := by
        have h := charLe_iff_toNat.mp h2.2.1
        simpa using h
      have ht : (Char.ofNat (c.toNat + 32)).toNat = c.toNat + 32 :=
        toNat_ofNat_valid _ (by omega)
      rw [if_neg, if_neg]
      · intro h3
        have h := charLe_iff_toNat.mp h3.2.1
        rw [ht] at h
        simp at h
        omega
      · intro h3
        have h := charLe_iff_toNat.mp h3.2
        rw [ht] at h
        simp at h
        omega
    · rw [if_neg h2, if_neg h1, if_neg h2]

lemma pyLower_idem (s : String) : pyLower (pyLower s) = pyLower s := by
  unfold pyLower
  refine congrArg String.mk ?_
  simp only []
  rw [List.map_map]
  refine List.map_congr_left ?_
  intro c _
  exact pyLowerChar_idem c

lemma runsF_mem_props (p : Char → Bool) :
    ∀ (fuel : Nat) (cs : List Char) (t : String), t ∈ runsF p fuel cs →
      t.data ≠ [] ∧ (∀ c ∈ t.data, p c = true) ∧ (∀ c ∈ t.data, c ∈ cs)
  | 0, cs, t => by simp [runsF]
  | fuel + 1, [], t => by simp [runsF]
  | fuel + 1, c :: cs, t => by
    intro ht
    rw [runsF] at ht
    by_cases hp : p c = true
    · rw [if_pos hp] at ht
      rcases List.mem_cons.mp ht with rfl | ht
      · refine ⟨by simp, ?_, ?_⟩
        · intro x hx
          rcases List.mem_cons.mp hx with rfl | hx
          · exact hp
          · exact List.mem_takeWhile_imp hx
        · intro x hx
          rcases List.mem_cons.mp hx with rfl | hx
          · exact List.mem_cons_self _ _
          · exact List.mem_cons_of_mem _ (List.takeWhile_subset p hx)
      · have h := runsF_mem_props p fuel (cs.dropWhile p) t ht
        exact ⟨h.1, h.2.1, fun x hx =>
          List.mem_cons_of_mem _ (List.dropWhile_subset p (h.2.2 x hx))⟩
    · rw [if_neg hp] at ht
      have h := runsF_mem_props p fuel cs t ht
      exact ⟨h.1, h.2.1, fun x hx => List.mem_cons_of_mem _ (h.2.2 x hx)⟩

/-- One step of the `Counter` fold. -/
def countStep (acc : List (String × Nat)) (t : String) : List (String × Nat) :=
  if acc.any (fun p => p.1 = t) then
    acc.map (fun p => if p.1 = t then (p.1, p.2 + 1) else p)
  else acc ++ [(t, 1)]

lemma tokenCounts_eq_foldl (ts : List String) :
    tokenCounts ts = ts.foldl countStep [] := rfl

lemma countStep_keys (acc : List (String × Nat)) (t : String) :
    (countStep acc t).map Prod.fst =
      if acc.any (fun p => p.1 = t) then acc.map Prod.fst
      else acc.map Prod.fst ++ [t] := by
  unfold countStep
  by_cases h : acc.any (fun p => p.1 = t)
  · rw [if_pos h, if_pos h, List.map_map]
    refine List.map_congr_left ?_
    intro p _
    by_cases hp : p.1 = t <;> simp [hp]
  · rw [if_neg h, if_neg h]
    simp

lemma countFold_nodup :
    ∀ (ts : List String) (acc : List (String × Nat)),
      ((acc.map Prod.fst).Nodup) →
      ((ts.foldl countStep acc).map Prod.fst).Nodup
  | [], acc => fun h => h
  | t :: ts, acc => by
    intro h
    rw [List.foldl_cons]
    apply countFold_nodup ts
    rw [countStep_keys]
    by_cases ha : acc.any (fun p => p.1 = t)
    · rwa [if_pos ha]
    · rw [if_neg ha]
      rw [List.nodup_append]
      refine ⟨h, List.nodup_singleton t, ?_⟩
      intro k hk hkt
      rcases List.mem_map.mp hk with ⟨q, hq, rfl⟩
      rcases List.mem_singleton.mp hkt with h2
      rw [List.any_eq_true] at ha
      exact ha ⟨q, hq, by simpa using h2⟩

lemma countFold_keys_from :
    ∀ (ts : List String) (acc : List (String × Nat)) (q : String × Nat),
      q ∈ ts.foldl countStep acc → q.1 ∈ acc.map Prod.fst ∨ q.1 ∈ ts
  | [], acc, q => fun h => Or.inl (List.mem_map_of_mem Prod.fst h)
  | t :: ts, acc, q => by
    intro h
    rw [List.foldl_cons] at h
    rcases countFold_keys_from ts (countStep acc t) q h with hk | hk
    · rw [countStep_keys] at hk
      by_cases ha : acc.any (fun p => p.1 = t)
      · rw [if_pos ha] at hk
        exact Or.inl hk
      · rw [if_neg ha] at hk
        rcases List.mem_append.mp hk with hk | hk
        · exact Or.inl hk
        · exact Or.inr (by simp [List.mem_singleton.mp hk])
    · exact Or.inr (List.mem_cons_of_mem t hk)

lemma topCounts_nodup_mem (toks : List String) :
    (((sortDesc (fun p : String × Nat => p.2) (tokenCounts toks)).take 5).map
        (fun p => p.1)).Nodup ∧
      ∀ k ∈ ((sortDesc (fun p : String × Nat => p.2) (tokenCounts toks)).take
          5).map (fun p => p.1), k ∈ toks := by
  have hfst : (fun p : String × Nat => p.1) = Prod.fst := rfl
  have hnodup : ((tokenCounts toks).map Prod.fst).Nodup := by
    rw [tokenCounts_eq_foldl]
    exact countFold_nodup _ [] (by simp)
  constructor
  · have hperm : ((sortDesc (fun p : String × Nat => p.2)
        (tokenCounts toks)).map Prod.fst).Perm ((tokenCounts toks).map Prod.fst) :=
      (sortDesc_perm _ _).map Prod.fst
    rw [hfst, List.map_take]
    exact List.Nodup.sublist (List.take_sublist 5 _) (hperm.nodup_iff.mpr hnodup)
  · intro k hk
    rcases List.mem_map.mp hk with ⟨q, hq, rfl⟩
    have hq2 : q ∈ sortDesc (fun p : String × Nat => p.2) (tokenCounts toks) :=
      List.mem_of_mem_take hq
    have hq3 : q ∈ tokenCounts toks := (sortDesc_perm _ _).mem_iff.mp hq2
    rcases countFold_keys_from toks [] q hq3 with h | h
    · simp at h
    · exact h

/-- C8 (amended): as called by the pipeline (`top_n = 5`), the keyword
extractor returns at most 5 keyphrases, de-duplicated by surface form; each
is a single lowercased token (hence at most 3 words) over the
letter/digit/hyphen class, of total length at least 3, neither a stopword
nor a pure digit string. The spec's 6–8 count and the alphabetic-length
floor do not hold (see the counterexample). -/
theorem c8_amended_extractor_top5 :
    ∀ text : String,
      (extract_keywords text 5).length ≤ 5 ∧
      (extract_keywords text 5).Nodup ∧
      (∀ k ∈ extract_keywords text 5,
        3 ≤ k.length ∧ STOPWORDS.contains k = false ∧ pyIsDigit k = false ∧
          pyLower k = k ∧ ∀ c ∈ k.data, tokenChar c = true) := by
  intro text
  have hcore := topCounts_nodup_mem
    ((runsOf tokenChar (pyLower text).data).filter
      (fun t => decide (3 ≤ t.length ∧ ¬ STOPWORDS.contains t = true ∧
        ¬ pyIsDigit t = true)))
  refine ⟨?_, ?_, ?_⟩
  · show (List.map _ (List.take 5 _)).length ≤ 5
    rw [List.length_map]
    exact List.length_take_le 5 _
  · exact hcore.1
  · intro k hk
    have hmem : k ∈ (runsOf tokenChar (pyLower text).data).filter
        (fun t => decide (3 ≤ t.length ∧ ¬ STOPWORDS.contains t = true ∧
          ¬ pyIsDigit t = true)) := hcore.2 k hk
    have hfil := List.mem_filter.mp hmem
    have hprops := of_decide_eq_true hfil.2
    have hruns := runsF_mem_props tokenChar _ _ k hfil.1
    refine ⟨hprops.1, by simpa using hprops.2.1, by simpa using hprops.2.2,
      ?_, hruns.2.1⟩
    have hmap : k.data.map pyLowerChar = k.data := by
      have hcong : ∀ c ∈ k.data, pyLowerChar c = id c := by
        intro c hc
        have hcin : c ∈ (pyLower text).data := hruns.2.2 c hc
        unfold pyLower at hcin
        rcases List.mem_map.mp hcin with ⟨c0, _, rfl⟩
        exact pyLowerChar_idem c0
      rw [List.map_congr_left hcong, List.map_id]
    show String.mk (k.data.map pyLowerChar) = k
    rw [hmap]

/-- Witness for C8 (amended) at a concrete text. -/
theorem c8_amended_witness :
    (extract_keywords "alpha beta alpha" 5).length ≤ 5 ∧
      (extract_keywords "alpha beta alpha" 5).Nodup ∧
      (∀ k ∈ extract_keywords "alpha beta alpha" 5,
        3 ≤ k.length ∧ STOPWORDS.contains k = false ∧ pyIsDigit k = false ∧
          pyLower k = k ∧ ∀ c ∈ k.data, tokenChar c = true) :=
  c8_amended_extractor_top5 "alpha beta alpha"

/-! ## The C5 failing collection: 1001 matching objects -/

/-- One object of the C5 failing collection. -/
def c5Obj (n : Nat) : PObj := { uuid := n, chunk_id := "s-1" }

/-- A collection of 1001 objects, all with a `chunk_id` matching stem `s`. -/
def c5Store : List PObj := (List.range 1001).map c5Obj

lemma c5_fetch :
    fetch_objects c5Store 1000 = (List.range 1000).map c5Obj := by
  unfold fetch_objects c5Store
  rw [← List.map_take, List.take_range]
  norm_num

lemma c5_toDelete :
    ((fetch_objects c5Store 1000).filter (fun o =>
        matchesFilePattern "s" o.chunk_id)).map (fun o => o.uuid) =
      List.range 1000 := by
  rw [c5_fetch]
  have hall : ((List.range 1000).map c5Obj).filter (fun o =>
      matchesFilePattern "s" o.chunk_id) = (List.range 1000).map c5Obj := by
    rw [List.filter_eq_self]
    intro o ho
    rcases List.mem_map.mp ho with ⟨n, _, rfl⟩
    show matchesFilePattern "s" "s-1" = true
    decide
  rw [hall, List.map_map]
  have : ((fun o : PObj => o.uuid) ∘ c5Obj) = id := rfl
  rw [this, List.map_id]

lemma c5_split : c5Store = (List.range 1000).map c5Obj ++ [c5Obj 1000] := by
  unfold c5Store
  rw [show (1001 : Nat) = 1000 + 1 from rfl, List.range_succ, List.map_append]
  rfl

/-- C5 (code bug): the purge examines only the first `fetch_objects` page.
On a collection of 1001 objects whose `chunk_id`s all match the stem `s`,
`purge_by_filename` deletes exactly the first 1000 and leaves one matching
object behind, and the inventory tool (which also reads a single page)
still reports one chunk for `s` afterwards — and reports only 1000 of the
1001 objects of the original collection. -/
theorem c5_purge_first_page_only :
    purge_by_filename "s" c5Store = some ([c5Obj 1000], 1000) ∧
      matchesFilePattern "s" (c5Obj 1000).chunk_id = true ∧
      collect_counts_for [c5Obj 1000] "s" = 1 ∧
      collect_counts_total c5Store = 1000 ∧
      c5Store.length = 1001 := by
  refine ⟨?_, by decide, by decide, ?_, ?_⟩
  · unfold purge_by_filename
    rw [if_neg (by decide)]
    simp only []
    rw [c5_toDelete]
    have hfil : c5Store.filter (fun o =>
        ¬ (List.range 1000).contains o.uuid) = [c5Obj 1000] := by
      rw [c5_split, List.filter_append]
      have h1 : ((List.range 1000).map c5Obj).filter (fun o =>
          ¬ (List.range 1000).contains o.uuid) = [] := by
        rw [List.filter_eq_nil_iff]
        intro o ho
        rcases List.mem_map.mp ho with ⟨n, hn, rfl⟩
        simp only [c5Obj, decide_not, Bool.not_eq_true', decide_eq_false_iff_not,
          Decidable.not_not]
        simpa using hn
      have h2 : ([c5Obj 1000] : List PObj).filter (fun o =>
          ¬ (List.range 1000).contains o.uuid) = [c5Obj 1000] := by
        rw [List.filter_eq_self]
        intro o ho
        rcases List.mem_singleton.mp ho with rfl
        simp [c5Obj]
      rw [h1, h2, List.nil_append]
    rw [hfil, List.length_range]
  · rw [collect_counts_total, c5_fetch]
    simp
  · rw [c5_split]
    simp

/-! ## Lemmas about the embedding cache -/

lemma data_append (a b : String) : (a ++ b).data = a.data ++ b.data := rfl

lemma cacheKey_inj (mn mv : String) {a b : String}
    (h : cacheKey mn mv a = cacheKey mn mv b) : a = b := by
  unfold cacheKey at h
  have hd := congrArg String.data h
  simp only [data_append, List.append_assoc] at hd
  have h1 := List.append_cancel_left hd
  have h2 := List.append_cancel_left h1
  have h3 := List.append_cancel_left h2
  have h4 := List.append_cancel_left h3
  exact String.ext h4

lemma mapLookup_nil (k : String) : mapLookup [] k = none := rfl

lemma mapLookup_cons (p : String × Vec) (m : CacheMap) (k : String) :
    mapLookup (p :: m) k = if p.1 == k then some p.2 else mapLookup m k := by
  unfold mapLookup
  rw [List.find?_cons]
  by_cases h : p.1 == k
  · simp [h]
  · simp only [h]
    rw [if_neg (by simp_all)]

lemma mapInsert_lookup_self :
    ∀ (m : CacheMap) (k : String) (v : Vec),
      mapLookup (mapInsert m k v) k = some v
  | [], k, v => by simp [mapInsert, mapLookup_cons]
  | p :: m, k, v => by
    unfold mapInsert
    by_cases ha : (p :: m).any (fun q => q.1 == k)
    · rw [if_pos ha, List.map_cons]
      by_cases hp : p.1 == k
      · rw [if_pos hp, mapLookup_cons]
        simp
      · rw [if_neg hp, mapLookup_cons, if_neg hp]
        have ha2 : m.any (fun q => q.1 == k) := by
          rcases List.any_eq_true.mp ha with ⟨q, hq, hqk⟩
          rcases List.mem_cons.mp hq with rfl | hq
          · exact absurd hqk (by simpa using hp)
          · exact List.any_eq_true.mpr ⟨q, hq, hqk⟩
        have := mapInsert_lookup_self m k v
        rwa [mapInsert, if_pos ha2] at this
    · rw [if_neg ha, List.cons_append, mapLookup_cons]
      have hp : ¬ (p.1 == k) := by
        intro hp
        exact ha (List.any_eq_true.mpr ⟨p, List.mem_cons_self _ _, hp⟩)
      rw [if_neg hp]
      have ha2 : ¬ m.any (fun q => q.1 == k) := by
        intro h2
        rcases List.any_eq_true.mp h2 with ⟨q, hq, hqk⟩
        exact ha (List.any_eq_true.mpr ⟨q, List.mem_cons_of_mem p hq, hqk⟩)
      have := mapInsert_lookup_self m k v
      rwa [mapInsert, if_neg ha2] at this

lemma map_bump_id (k : String) (v : Vec) :
    ∀ m : CacheMap, ¬ m.any (fun q => q.1 == k) →
      m.map (fun p => if p.1 == k then (k, v) else p) = m
  | [], _ => rfl
  | q :: m, h => by
    have hq : ¬ (q.1 == k) := by
      intro hq
      exact h (List.any_eq_true.mpr ⟨q, List.mem_cons_self _ _, hq⟩)
    have hm : ¬ m.any (fun r => r.1 == k) := by
      intro h2
      rcases List.any_eq_true.mp h2 with ⟨r, hr, hrk⟩
      exact h (List.any_eq_true.mpr ⟨r, List.mem_cons_of_mem q hr, hrk⟩)
    rw [List.map_cons, if_neg hq, map_bump_id k v m hm]

lemma mapInsert_lookup_ne :
    ∀ (m : CacheMap) (k k' : String) (v : Vec), k' ≠ k →
      mapLookup (mapInsert m k v) k' = mapLookup m k'
  | [], k, k', v => by
    intro h
    simp only [mapInsert, List.any_nil, Bool.false_eq_true, if_false,
      List.nil_append, mapLookup_cons, mapLookup_nil]
    rw [if_neg (by simpa using fun he => h he.symm)]
  | p :: m, k, k', v => by
    intro h
    unfold mapInsert
    by_cases ha : (p :: m).any (fun q => q.1 == k)
    · rw [if_pos ha, List.map_cons, mapLookup_cons, mapLookup_cons]
      by_cases hp : p.1 == k
      · rw [if_pos hp]
        simp only []
        have h1 : ¬ ((k : String) == k') := by simpa using fun he => h he.symm
        have h2 : ¬ (p.1 == k') := by
          have : p.1 = k := by simpa using hp
          rw [this]
          exact h1
        rw [if_neg h1, if_neg h2]
        by_cases ha2 : m.any (fun q => q.1 == k)
        · have := mapInsert_lookup_ne m k k' v h
          rwa [mapInsert, if_pos ha2] at this
        · rw [map_bump_id k v m ha2]
      · rw [if_neg hp]
        by_cases hpk : p.1 == k'
        · rw [if_pos hpk, if_pos hpk]
        · rw [if_neg hpk, if_neg hpk]
          by_cases ha2 : m.any (fun q => q.1 == k)
          · have := mapInsert_lookup_ne m k k' v h
            rwa [mapInsert, if_pos ha2] at this
          · rw [map_bump_id k v m ha2]
    · rw [if_neg ha, List.cons_append, mapLookup_cons, mapLookup_cons]
      by_cases hpk : p.1 == k'
      · rw [if_pos hpk, if_pos hpk]
      · rw [if_neg hpk, if_neg hpk]
        have ha2 : ¬ m.any (fun q => q.1 == k) := by
          intro h2
          rcases List.any_eq_true.mp h2 with ⟨q, hq, hqk⟩
          exact ha (List.any_eq_true.mpr ⟨q, List.mem_cons_of_mem p hq, hqk⟩)
        have := mapInsert_lookup_ne m k k' v h
        rwa [mapInsert, if_neg ha2] at this

lemma loadCache_append_one (file : CacheFile) (p : String × Vec) :
    loadCache (file ++ [p]) = mapInsert (loadCache file) p.1 p.2 := by
  simp [loadCache, List.foldl_append]

/-- The in-memory map extends its base `m0` only with freshly computed
entries (key of some text, value the backend's vector for it). -/
def ExtOf (f : String → Vec) (key : String → String) (m0 m : CacheMap) : Prop :=
  (∀ k v, mapLookup m0 k = some v → mapLookup m k = some v) ∧
  (∀ k v, mapLookup m k = some v →
    mapLookup m0 k = some v ∨ ∃ t, k = key t ∧ v = f t)

lemma ExtOf_refl (f : String → Vec) (key : String → String) (m0 : CacheMap) :
    ExtOf f key m0 m0 :=
  ⟨fun _ _ h => h, fun _ _ h => Or.inl h⟩

lemma ExtOf_insert {f : String → Vec} {key : String → String}
    {m0 m : CacheMap} (hE : ExtOf f key m0 m) (t : String)
    (h0 : mapLookup m0 (key t) = none) :
    ExtOf f key m0 (mapInsert m (key t) (f t)) := by
  constructor
  · intro k v hk
    have hne : k ≠ key t := by
      intro he
      rw [he, h0] at hk
      cases hk
    rw [mapInsert_lookup_ne m (key t) k (f t) hne]
    exact hE.1 k v hk
  · intro k v hk
    by_cases hke : k = key t
    · subst hke
      rw [mapInsert_lookup_self] at hk
      exact Or.inr ⟨t, rfl, (Option.some_inj.mp hk).symm⟩
    · rw [mapInsert_lookup_ne m (key t) k (f t) hke] at hk
      exact hE.2 k v hk

lemma ExtOf_mono_insert {f : String → Vec} {key : String → String}
    {m0 m : CacheMap} (hinj : ∀ a b, key a = key b → a = b)
    (hE : ExtOf f key m0 m) (t : String)
    (h0 : mapLookup m0 (key t) = none) :
    ∀ k v, mapLookup m k = some v →
      mapLookup (mapInsert m (key t) (f t)) k = some v := by
  intro k v hk
  by_cases hke : k = key t
  · subst hke
    rcases hE.2 _ _ hk with h | ⟨t2, ht2, hv⟩
    · rw [h0] at h
      cases h
    · have : t2 = t := hinj t2 t ht2.symm
      subst this
      rw [mapInsert_lookup_self, hv]
  · rw [mapInsert_lookup_ne m (key t) k (f t) hke]
    exact hk

lemma fillGo_spec (f : String → Vec) (key : String → String)
    (hinj : ∀ a b, key a = key b → a = b) (m0 : CacheMap) :
    ∀ (pend : List (String × Option Vec)) (m : CacheMap) (fl : CacheFile),
      (∀ p ∈ pend, p.2 = mapLookup m0 (key p.1)) →
      ExtOf f key m0 m →
      m = loadCache fl →
      (fillGo f key pend m fl).2.1 = loadCache (fillGo f key pend m fl).2.2 ∧
        ExtOf f key m0 (fillGo f key pend m fl).2.1 ∧
        (∀ k v, mapLookup m k = some v →
          mapLookup (fillGo f key pend m fl).2.1 k = some v) ∧
        (fillGo f key pend m fl).1 = pend.map (fun p =>
          (mapLookup (fillGo f key pend m fl).2.1 (key p.1)).getD (f p.1)) ∧
        (∀ p ∈ pend, ∃ v,
          mapLookup (fillGo f key pend m fl).2.1 (key p.1) = some v) ∧
        (∃ app, (fillGo f key pend m fl).2.2 = fl ++ app)
  | [], m, fl => by
    intro _ hE hsync
    exact ⟨hsync, hE, fun _ _ h => h, rfl, by simp, ⟨[], by simp [fillGo]⟩⟩
  | (t, some v) :: rest, m, fl => by
    intro hp hE hsync
    have hv : some v = mapLookup m0 (key t) := hp (t, some v) (List.mem_cons_self _ _)
    have ih := fillGo_spec f key hinj m0 rest m fl
      (fun p h => hp p (List.mem_cons_of_mem _ h)) hE hsync
    rw [fillGo]
    refine ⟨ih.1, ih.2.1, ih.2.2.1, ?_, ?_, ih.2.2.2.2.2⟩
    · have hm2 : mapLookup (fillGo f key rest m fl).2.1 (key t) = some v :=
        ih.2.2.1 (key t) v (hE.1 (key t) v hv.symm)
      rw [List.map_cons]
      simp only [hm2, Option.getD_some]
      exact congrArg (v :: ·) ih.2.2.2.1
    · intro p h
      rcases List.mem_cons.mp h with rfl | h
      · exact ⟨v, ih.2.2.1 (key t) v (hE.1 (key t) v hv.symm)⟩
      · exact ih.2.2.2.2.1 p h
  | (t, none) :: rest, m, fl => by
    intro hp hE hsync
    have h0 : mapLookup m0 (key t) = none :=
      (hp (t, none) (List.mem_cons_self _ _)).symm
    have hE2 : ExtOf f key m0 (mapInsert m (key t) (f t)) := ExtOf_insert hE t h0
    have hsync2 : mapInsert m (key t) (f t) = loadCache (fl ++ [(key t, f t)]) := by
      rw [loadCache_append_one, hsync]
    have ih := fillGo_spec f key hinj m0 rest (mapInsert m (key t) (f t))
      (fl ++ [(key t, f t)]) (fun p h => hp p (List.mem_cons_of_mem _ h)) hE2 hsync2
    rw [fillGo]
    have hself : mapLookup (fillGo f key rest (mapInsert m (key t) (f t))
        (fl ++ [(key t, f t)])).2.1 (key t) = some (f t) :=
      ih.2.2.1 (key t) (f t) (mapInsert_lookup_self m (key t) (f t))
    refine ⟨ih.1, ih.2.1, ?_, ?_, ?_, ?_⟩
    · intro k v hk
      exact ih.2.2.1 k v (ExtOf_mono_insert hinj hE t h0 k v hk)
    · rw [List.map_cons]
      simp only [hself, Option.getD_some]
      exact congrArg (f t :: ·) ih.2.2.2.1
    · intro p h
      rcases List.mem_cons.mp h with rfl | h
      · exact ⟨f t, hself⟩
      · exact ih.2.2.2.2.1 p h
    · rcases ih.2.2.2.2.2 with ⟨app, happ⟩
      exact ⟨(key t, f t) :: app, by rw [happ, List.append_assoc, List.singleton_append]⟩

lemma fillBatch_spec (f : String → Vec) (key : String → String)
    (hinj : ∀ a b, key a = key b → a = b) (st : CState) (texts : List String)
    (hsync : st.map = loadCache st.file) :
    (fillBatch f key st texts).2.map =
        loadCache (fillBatch f key st texts).2.file ∧
      (∀ k v, mapLookup st.map k = some v →
        mapLookup (fillBatch f key st texts).2.map k = some v) ∧
      (∀ t ∈ texts, ∃ v,
        mapLookup (fillBatch f key st texts).2.map (key t) = some v) ∧
      (fillBatch f key st texts).1 = texts.map (fun t =>
        (mapLookup (fillBatch f key st texts).2.map (key t)).getD (f t)) ∧
      (∃ app, (fillBatch f key st texts).2.file = st.file ++ app) := by
  have hgo := fillGo_spec f key hinj st.map
    (texts.map (fun t => (t, mapLookup st.map (key t)))) st.map st.file
    (by
      intro p h
      rcases List.mem_map.mp h with ⟨t, _, rfl⟩
      rfl)
    (ExtOf_refl f key st.map) hsync
  unfold fillBatch
  simp only []
  refine ⟨hgo.1, hgo.2.2.1, ?_, ?_, hgo.2.2.2.2.2⟩
  · intro t ht
    exact hgo.2.2.2.2.1 (t, mapLookup st.map (key t)) (List.mem_map_of_mem _ ht)
  · rw [hgo.2.2.2.1, List.map_map]
    rfl

lemma fillGo_all_some (f : String → Vec) (key : String → String) :
    ∀ (pend : List (String × Option Vec)) (m : CacheMap) (fl : CacheFile),
      (∀ p ∈ pend, p.2.isSome) →
      fillGo f key pend m fl = (pend.map (fun p => p.2.getD (f p.1)), m, fl)
  | [], m, fl => fun _ => rfl
  | (t, o) :: rest, m, fl => by
    intro h
    have ho := h (t, o) (List.mem_cons_self _ _)
    rcases o with _ | v
    · simp at ho
    · rw [fillGo,
        fillGo_all_some f key rest m fl (fun p hp => h p (List.mem_cons_of_mem _ hp))]
      rfl

lemma fillBatch_all_hits (f : String → Vec) (key : String → String)
    (st : CState) (texts : List String)
    (h : ∀ t ∈ texts, (mapLookup st.map (key t)).isSome) :
    fillBatch f key st texts =
      (texts.map (fun t => (mapLookup st.map (key t)).getD (f t)), st) := by
  unfold fillBatch
  simp only []
  rw [fillGo_all_some f key _ st.map st.file (by
    intro p hp
    rcases List.mem_map.mp hp with ⟨t, ht, rfl⟩
    exact h t ht)]
  have hany : (texts.map (fun t => (t, mapLookup st.map (key t)))).any
      (fun p => p.2.isNone) = false := by
    rw [List.any_eq_false]
    intro p hp
    rcases List.mem_map.mp hp with ⟨t, ht, rfl⟩
    have hs := h t ht
    show ¬ (mapLookup st.map (key t)).isNone = true
    rcases Option.isSome_iff_exists.mp hs with ⟨v, hv⟩
    rw [hv]
    simp
  simp only [hany, Bool.false_eq_true, if_false, Nat.add_zero, List.map_map]
  rfl

/-- The texts a row makes the embedder resolve: its chunk text and (when
heading embeddings are enabled) its non-blank heading titles in level
order. -/
def rowTexts (incH : Bool) (r : CRow) : List String :=
  r.text :: (if incH then (orderedHeadings r.headings).map Prod.snd else [])

/-- The record `flush_batch` emits for a row, expressed through lookups in a
cache map `M`. -/
def canonRec (f : String → Vec) (incH : Bool) (mn mv created : String)
    (M : CacheMap) (r : CRow) : ERec :=
  { chunk_id := r.chunk_id
    text := r.text
    embedding := (mapLookup M (cacheKey mn mv r.text)).getD (f r.text)
    hembs :=
      if incH then
        (orderedHeadings r.headings).map
          (fun p => (p.1, (mapLookup M (cacheKey mn mv p.2)).getD (f p.2)))
      else []
    model_name := mn
    model_version := mv
    created_at := created
    approx_tokens := r.approx_tokens
    keywords := r.keywords
    headings := r.headings }

lemma canonRec_congr (f : String → Vec) (incH : Bool) (mn mv created : String)
    (M M2 : CacheMap) (r : CRow)
    (hmono : ∀ k v, mapLookup M k = some v → mapLookup M2 k = some v)
    (hsome : ∀ t ∈ rowTexts incH r, (mapLookup M (cacheKey mn mv t)).isSome) :
    canonRec f incH mn mv created M r = canonRec f incH mn mv created M2 r := by
  have hemb : (mapLookup M (cacheKey mn mv r.text)).getD (f r.text) =
      (mapLookup M2 (cacheKey mn mv r.text)).getD (f r.text) := by
    rcases Option.isSome_iff_exists.mp
      (hsome r.text (List.mem_cons_self _ _)) with ⟨v, hv⟩
    rw [hv, hmono _ _ hv]
  have hh : (if incH then
      (orderedHeadings r.headings).map
        (fun p => (p.1, (mapLookup M (cacheKey mn mv p.2)).getD (f p.2)))
    else []) = (if incH then
      (orderedHeadings r.headings).map
        (fun p => (p.1, (mapLookup M2 (cacheKey mn mv p.2)).getD (f p.2)))
    else []) := by
    cases incH
    · rfl
    · simp only [if_true]
      refine List.map_congr_left ?_
      intro p hp
      have hmem : p.2 ∈ rowTexts true r :=
        List.mem_cons_of_mem _ (by simpa [rowTexts] using List.mem_map_of_mem Prod.snd hp)
      rcases Option.isSome_iff_exists.mp (hsome p.2 hmem) with ⟨v, hv⟩
      rw [hv, hmono _ _ hv]
  unfold canonRec
  rw [hemb, hh]

lemma zip_self_map {α β : Type} :
    ∀ (l : List α) (g : α → β), l.zip (l.map g) = l.map (fun a => (a, g a))
  | [], _ => rfl
  | a :: l, g => by
    rw [List.map_cons, List.zip_cons_cons, zip_self_map l g, List.map_cons]

lemma redistribute_map (fn : String → Vec) :
    ∀ gs : List (List (Nat × String)),
      redistribute gs ((gs.flatten.map Prod.snd).map fn) =
        gs.map (fun g => g.map (fun p => (p.1, fn p.2)))
  | [] => rfl
  | g :: gs => by
    rw [redistribute]
    have hflat : ((g :: gs).flatten.map Prod.snd).map fn =
        ((g.map Prod.snd).map fn) ++ ((gs.flatten.map Prod.snd).map fn) := by
      rw [List.flatten_cons, List.map_append, List.map_append]
    have hlen : ((g.map Prod.snd).map fn).length = g.length := by simp
    rw [hflat, List.take_left' hlen, List.drop_left' hlen, List.map_map,
      List.zip_map' Prod.fst (fn ∘ Prod.snd) g]
    rw [redistribute_map fn gs, List.map_cons]
    rfl

lemma redistribute_empty :
    ∀ rows : List CRow,
      redistribute (rows.map (fun _ => ([] : List (Nat × String)))) [] =
        rows.map (fun _ => ([] : List (Nat × Vec)))
  | [] => rfl
  | r :: rows => by
    rw [List.map_cons, redistribute]
    simp only [List.map_nil, List.take_nil, List.drop_nil, List.zip_nil_right]
    rw [redistribute_empty rows, List.map_cons]

lemma buildRecs_eq (rows : List CRow) (mn mv created : String)
    (fT : CRow → Vec) (fH : CRow → List (Nat × Vec)) :
    (rows.zip ((rows.map fT).zip (rows.map fH))).map (fun p =>
      ({ chunk_id := p.1.chunk_id
         text := p.1.text
         embedding := p.2.1
         hembs := p.2.2
         model_name := mn
         model_version := mv
         created_at := created
         approx_tokens := p.1.approx_tokens
         keywords := p.1.keywords
         headings := p.1.headings } : ERec)) =
      rows.map (fun r =>
        ({ chunk_id := r.chunk_id
           text := r.text
           embedding := fT r
           hembs := fH r
           model_name := mn
           model_version := mv
           created_at := created
           approx_tokens := r.approx_tokens
           keywords := r.keywords
           headings := r.headings } : ERec)) := by
  rw [List.zip_map' fT fH rows, zip_self_map, List.map_map]
  rfl

lemma flushBatch_spec (f : String → Vec) (incH : Bool) (mn mv created : String)
    (st : CState) (rows : List CRow) (hsync : st.map = loadCache st.file) :
    (flushBatch f incH mn mv created st rows).2.map =
        loadCache (flushBatch f incH mn mv created st rows).2.file ∧
      (∀ k v, mapLookup st.map k = some v →
        mapLookup (flushBatch f incH mn mv created st rows).2.map k = some v) ∧
      (∀ t ∈ rows.flatMap (rowTexts incH),
        (mapLookup (flushBatch f incH mn mv created st rows).2.map
          (cacheKey mn mv t)).isSome) ∧
      (flushBatch f incH mn mv created st rows).1 = rows.map
        (canonRec f incH mn mv created
          (flushBatch f incH mn mv created st rows).2.map) ∧
      (∃ app, (flushBatch f incH mn mv created st rows).2.file =
        st.file ++ app) := by
  cases incH
  · have tspec := fillBatch_spec f (cacheKey mn mv) (fun a b h => cacheKey_inj mn mv h) st
      (rows.map (fun r => r.text)) hsync
    refine ⟨tspec.1, tspec.2.1, ?_, ?_, tspec.2.2.2.2⟩
    · intro t ht
      rcases List.mem_flatMap.mp ht with ⟨r, hr, htr⟩
      rcases List.mem_cons.mp htr with rfl | hfalse
      · exact Option.isSome_iff_exists.mpr
          (tspec.2.2.1 r.text (List.mem_map_of_mem _ hr))
      · simp [rowTexts] at hfalse
    · show (rows.zip ((fillBatch f (cacheKey mn mv) st
          (rows.map (fun r => r.text))).1.zip
            (redistribute (rows.map (fun _ => ([] : List (Nat × String))))
              []))).map (fun p =>
        ({ chunk_id := p.1.chunk_id
           text := p.1.text
           embedding := p.2.1
           hembs := p.2.2
           model_name := mn
           model_version := mv
           created_at := created
           approx_tokens := p.1.approx_tokens
           keywords := p.1.keywords
           headings := p.1.headings } : ERec)) = _
      rw [redistribute_empty, tspec.2.2.2.1, List.map_map]
      exact buildRecs_eq rows mn mv created _ _
  · have tspec := fillBatch_spec f (cacheKey mn mv) (fun a b h => cacheKey_inj mn mv h) st
      (rows.map (fun r => r.text)) hsync
    have hspec := fillBatch_spec f (cacheKey mn mv) (fun a b h => cacheKey_inj mn mv h)
      (fillBatch f (cacheKey mn mv) st (rows.map (fun r => r.text))).2
      (((rows.map (fun r => orderedHeadings r.headings)).flatten).map Prod.snd)
      tspec.1
    refine ⟨hspec.1, ?_, ?_, ?_, ?_⟩
    · intro k v hk
      exact hspec.2.1 k v (tspec.2.1 k v hk)
    · intro t ht
      rcases List.mem_flatMap.mp ht with ⟨r, hr, htr⟩
      rcases List.mem_cons.mp htr with rfl | htitle
      · rcases tspec.2.2.1 r.text (List.mem_map_of_mem _ hr) with ⟨v, hv⟩
        exact Option.isSome_iff_exists.mpr ⟨v, hspec.2.1 _ v hv⟩
      · have ht2 : t ∈ ((rows.map (fun r =>
            orderedHeadings r.headings)).flatten).map Prod.snd := by
          simp only [rowTexts, if_true] at htitle
          rcases List.mem_map.mp htitle with ⟨p, hp, rfl⟩
          exact List.mem_map_of_mem Prod.snd
            (List.mem_flatten.mpr ⟨orderedHeadings r.headings,
              List.mem_map_of_mem _ hr, hp⟩)
        exact Option.isSome_iff_exists.mpr (hspec.2.2.1 t ht2)
    · show (rows.zip ((fillBatch f (cacheKey mn mv) st
          (rows.map (fun r => r.text))).1.zip
            (redistribute (rows.map (fun r => orderedHeadings r.headings))
              (fillBatch f (cacheKey mn mv)
                (fillBatch f (cacheKey mn mv) st
                  (rows.map (fun r => r.text))).2
                (((rows.map (fun r =>
                  orderedHeadings r.headings)).flatten).map Prod.snd)).1))).map
        (fun p =>
          ({ chunk_id := p.1.chunk_id
             text := p.1.text
             embedding := p.2.1
             hembs := p.2.2
             model_name := mn
             model_version := mv
             created_at := created
             approx_tokens := p.1.approx_tokens
             keywords := p.1.keywords
             headings := p.1.headings } : ERec)) = _
      rw [hspec.2.2.2.1, redistribute_map, tspec.2.2.2.1]
      have htv : (rows.map (fun r => r.text)).map (fun t =>
          (mapLookup (fillBatch f (cacheKey mn mv) st
            (rows.map (fun r => r.text))).2.map (cacheKey mn mv t)).getD
              (f t)) =
          rows.map (fun r =>
            (mapLookup (fillBatch f (cacheKey mn mv)
              (fillBatch f (cacheKey mn mv) st
                (rows.map (fun r => r.text))).2
              (((rows.map (fun r =>
                orderedHeadings r.headings)).flatten).map Prod.snd)).2.map
              (cacheKey mn mv r.text)).getD (f r.text)) := by
        rw [List.map_map]
        refine List.map_congr_left ?_
        intro r hr
        rcases tspec.2.2.1 r.text (List.mem_map_of_mem _ hr) with ⟨v, hv⟩
        show (mapLookup _ _).getD _ = (mapLookup _ _).getD _
        rw [hv, hspec.2.1 _ v hv]
      rw [htv, List.map_map]
      rw [buildRecs_eq rows mn mv created _ _]
      refine List.map_congr_left ?_
      intro r _
      rfl
    · rcases tspec.2.2.2.2 with ⟨a1, h1⟩
      rcases hspec.2.2.2.2 with ⟨a2, h2⟩
      refine ⟨a1 ++ a2, ?_⟩
      show (fillBatch f (cacheKey mn mv)
          (fillBatch f (cacheKey mn mv) st (rows.map (fun r => r.text))).2
          (((rows.map (fun r =>
            orderedHeadings r.headings)).flatten).map Prod.snd)).2.file =
        st.file ++ (a1 ++ a2)
      rw [h2, h1, List.append_assoc]

lemma flushBatch_all_hits (f : String → Vec) (incH : Bool)
    (mn mv created : String) (st : CState) (rows : List CRow)
    (h : ∀ t ∈ rows.flatMap (rowTexts incH),
      (mapLookup st.map (cacheKey mn mv t)).isSome) :
    flushBatch f incH mn mv created st rows =
      (rows.map (canonRec f incH mn mv created st.map), st) := by
  have htexts : ∀ t ∈ rows.map (fun r => r.text),
      (mapLookup st.map (cacheKey mn mv t)).isSome := by
    intro t ht
    rcases List.mem_map.mp ht with ⟨r, hr, rfl⟩
    exact h r.text (List.mem_flatMap.mpr ⟨r, hr, List.mem_cons_self _ _⟩)
  have h1 := fillBatch_all_hits f (cacheKey mn mv) st
    (rows.map (fun r => r.text)) htexts
  cases incH
  · show ((rows.zip ((fillBatch f (cacheKey mn mv) st
        (rows.map (fun r => r.text))).1.zip
          (redistribute (rows.map (fun _ => ([] : List (Nat × String))))
            []))).map (fun p =>
      ({ chunk_id := p.1.chunk_id
         text := p.1.text
         embedding := p.2.1
         hembs := p.2.2
         model_name := mn
         model_version := mv
         created_at := created
         approx_tokens := p.1.approx_tokens
         keywords := p.1.keywords
         headings := p.1.headings } : ERec)),
      (fillBatch f (cacheKey mn mv) st (rows.map (fun r => r.text))).2) = _
    rw [h1, redistribute_empty]
    simp only []
    rw [List.map_map, buildRecs_eq rows mn mv created _ _]
    rfl
  · have htitles : ∀ t ∈ ((rows.map (fun r =>
        orderedHeadings r.headings)).flatten).map Prod.snd,
        (mapLookup st.map (cacheKey mn mv t)).isSome := by
      intro t ht
      rcases List.mem_map.mp ht with ⟨p, hp, rfl⟩
      rcases List.mem_flatten.mp hp with ⟨g, hg, hpg⟩
      rcases List.mem_map.mp hg with ⟨r, hr, rfl⟩
      refine h p.2 (List.mem_flatMap.mpr ⟨r, hr, ?_⟩)
      show p.2 ∈ r.text :: (orderedHeadings r.headings).map Prod.snd
      exact List.mem_cons_of_mem _ (List.mem_map_of_mem Prod.snd hpg)
    have h2 := fillBatch_all_hits f (cacheKey mn mv) st
      (((rows.map (fun r => orderedHeadings r.headings)).flatten).map Prod.snd)
      htitles
    show ((rows.zip ((fillBatch f (cacheKey mn mv) st
        (rows.map (fun r => r.text))).1.zip
          (redistribute (rows.map (fun r => orderedHeadings r.headings))
            (fillBatch f (cacheKey mn mv)
              (fillBatch f (cacheKey mn mv) st
                (rows.map (fun r => r.text))).2
              (((rows.map (fun r =>
                orderedHeadings r.headings)).flatten).map Prod.snd)).1))).map
      (fun p =>
        ({ chunk_id := p.1.chunk_id
           text := p.1.text
           embedding := p.2.1
           hembs := p.2.2
           model_name := mn
           model_version := mv
           created_at := created
           approx_tokens := p.1.approx_tokens
           keywords := p.1.keywords
           headings := p.1.headings } : ERec)),
      (fillBatch f (cacheKey mn mv)
        (fillBatch f (cacheKey mn mv) st (rows.map (fun r => r.text))).2
        (((rows.map (fun r =>
          orderedHeadings r.headings)).flatten).map Prod.snd)).2) = _
    rw [h1]
    simp only []
    rw [h2]
    simp only []
    rw [redistribute_map, List.map_map, List.map_map,
      buildRecs_eq rows mn mv created _ _]
    rfl

lemma convertGo_spec (f : String → Vec) (incH : Bool)
    (mn mv created : String) :
    ∀ (rest batch : List CRow) (st : CState) (outs : List ERec),
      st.map = loadCache st.file →
      (convertGo f incH mn mv created batch rest st outs).2.map =
          loadCache (convertGo f incH mn mv created batch rest st outs).2.file ∧
        (∀ k v, mapLookup st.map k = some v →
          mapLookup (convertGo f incH mn mv created batch rest st outs).2.map
            k = some v) ∧
        (∀ t ∈ (batch ++ rest).flatMap (rowTexts incH),
          (mapLookup (convertGo f incH mn mv created batch rest st outs).2.map
            (cacheKey mn mv t)).isSome) ∧
        (convertGo f incH mn mv created batch rest st outs).1 =
          outs ++ (batch ++ rest).map (canonRec f incH mn mv created
            (convertGo f incH mn mv created batch rest st outs).2.map) ∧
        (∃ app, (convertGo f incH mn mv created batch rest st outs).2.file =
          st.file ++ app)
  | [], batch, st, outs => by
    intro hsync
    have heq : convertGo f incH mn mv created batch [] st outs =
        (outs ++ (flushBatch f incH mn mv created st batch).1,
          (flushBatch f incH mn mv created st batch).2) := rfl
    have fspec := flushBatch_spec f incH mn mv created st batch hsync
    rw [heq]
    simp only [List.append_nil]
    exact ⟨fspec.1, fspec.2.1, fspec.2.2.1,
      by rw [fspec.2.2.2.1], fspec.2.2.2.2⟩
  | r :: rs, batch, st, outs => by
    intro hsync
    have heq : convertGo f incH mn mv created batch (r :: rs) st outs =
        (if 64 ≤ (batch ++ [r]).length then
          convertGo f incH mn mv created [] rs
            (flushBatch f incH mn mv created st (batch ++ [r])).2
            (outs ++ (flushBatch f incH mn mv created st (batch ++ [r])).1)
        else convertGo f incH mn mv created (batch ++ [r]) rs st outs) := rfl
    have hsplit : batch ++ r :: rs = (batch ++ [r]) ++ rs := by
      rw [List.append_assoc, List.singleton_append]
    by_cases hlen : 64 ≤ (batch ++ [r]).length
    · rw [heq, if_pos hlen]
      have fspec := flushBatch_spec f incH mn mv created st (batch ++ [r]) hsync
      have ih := convertGo_spec f incH mn mv created rs []
        (flushBatch f incH mn mv created st (batch ++ [r])).2
        (outs ++ (flushBatch f incH mn mv created st (batch ++ [r])).1) fspec.1
      simp only [List.nil_append] at ih
      refine ⟨ih.1, ?_, ?_, ?_, ?_⟩
      · intro k v hk
        exact ih.2.1 k v (fspec.2.1 k v hk)
      · intro t ht
        rw [hsplit, List.flatMap_append] at ht
        rcases List.mem_append.mp ht with ht | ht
        · rcases Option.isSome_iff_exists.mp (fspec.2.2.1 t ht) with ⟨v, hv⟩
          exact Option.isSome_iff_exists.mpr ⟨v, ih.2.1 _ v hv⟩
        · exact ih.2.2.1 t ht
      · have hcongr : (batch ++ [r]).map (canonRec f incH mn mv created
            (convertGo f incH mn mv created [] rs
              (flushBatch f incH mn mv created st (batch ++ [r])).2
              (outs ++ (flushBatch f incH mn mv created st
                (batch ++ [r])).1)).2.map) =
            (batch ++ [r]).map (canonRec f incH mn mv created
              (flushBatch f incH mn mv created st (batch ++ [r])).2.map) := by
          refine List.map_congr_left ?_
          intro q hq
          refine (canonRec_congr f incH mn mv created _ _ q ih.2.1 ?_).symm
          intro t ht
          exact fspec.2.2.1 t (List.mem_flatMap.mpr ⟨q, hq, ht⟩)
        rw [hsplit, List.map_append, hcongr, ih.2.2.2.1, fspec.2.2.2.1,
          List.append_assoc]
      · rcases fspec.2.2.2.2 with ⟨a1, h1⟩
        rcases ih.2.2.2.2 with ⟨a2, h2⟩
        exact ⟨a1 ++ a2, by rw [h2, h1, List.append_assoc]⟩
    · rw [heq, if_neg hlen]
      have ih := convertGo_spec f incH mn mv created rs (batch ++ [r]) st
        outs hsync
      rw [hsplit]
      exact ih

lemma convertGo_all_hits (f : String → Vec) (incH : Bool)
    (mn mv created : String) :
    ∀ (rest batch : List CRow) (st : CState) (outs : List ERec),
      (∀ t ∈ (batch ++ rest).flatMap (rowTexts incH),
        (mapLookup st.map (cacheKey mn mv t)).isSome) →
      convertGo f incH mn mv created batch rest st outs =
        (outs ++ (batch ++ rest).map (canonRec f incH mn mv created st.map),
          st)
  | [], batch, st, outs => by
    intro h
    have heq : convertGo f incH mn mv created batch [] st outs =
        (outs ++ (flushBatch f incH mn mv created st batch).1,
          (flushBatch f incH mn mv created st batch).2) := rfl
    rw [heq, flushBatch_all_hits f incH mn mv created st batch
      (by simpa using h)]
    simp
  | r :: rs, batch, st, outs => by
    intro h
    have heq : convertGo f incH mn mv created batch (r :: rs) st outs =
        (if 64 ≤ (batch ++ [r]).length then
          convertGo f incH mn mv created [] rs
            (flushBatch f incH mn mv created st (batch ++ [r])).2
            (outs ++ (flushBatch f incH mn mv created st (batch ++ [r])).1)
        else convertGo f incH mn mv created (batch ++ [r]) rs st outs) := rfl
    have hsplit : batch ++ r :: rs = (batch ++ [r]) ++ rs := by
      rw [List.append_assoc, List.singleton_append]
    by_cases hlen : 64 ≤ (batch ++ [r]).length
    · rw [heq, if_pos hlen]
      have hfirst : ∀ t ∈ (batch ++ [r]).flatMap (rowTexts incH),
          (mapLookup st.map (cacheKey mn mv t)).isSome := by
        intro t ht
        refine h t ?_
        rw [hsplit, List.flatMap_append]
        exact List.mem_append.mpr (Or.inl ht)
      rw [flushBatch_all_hits f incH mn mv created st (batch ++ [r]) hfirst]
      simp only []
      rw [convertGo_all_hits f incH mn mv created rs [] st _ (by
        intro t ht
        refine h t ?_
        rw [hsplit, List.flatMap_append]
        exact List.mem_append.mpr (Or.inr (by simpa using ht)))]
      rw [hsplit, List.map_append]
      simp [List.append_assoc]
    · rw [heq, if_neg hlen]
      rw [convertGo_all_hits f incH mn mv created rs (batch ++ [r]) st outs
        (by rwa [← hsplit])]
      rw [hsplit]

/-- C6: encoding the same rows twice under the same model is idempotent:
the second run performs zero backend encode calls, appends nothing to the
cache file (so the file — hence its key set and line count — is unchanged),
and returns bit-identical text and heading vectors. The backend is an
opaque deterministic encoder `f`; SHA-256 keys are modelled by their
payloads. -/
theorem c6_cache_idempotent :
    ∀ (f : String → Vec) (incH : Bool) (mn mv created1 created2 : String)
      (cache0 : CacheFile) (rows : List CRow),
      (convert_chunks_to_embeddings f incH mn mv created2
          (convert_chunks_to_embeddings f incH mn mv created1 cache0
            rows).2.1 rows).2.2 = 0 ∧
        (convert_chunks_to_embeddings f incH mn mv created2
            (convert_chunks_to_embeddings f incH mn mv created1 cache0
              rows).2.1 rows).2.1 =
          (convert_chunks_to_embeddings f incH mn mv created1 cache0
            rows).2.1 ∧
        (convert_chunks_to_embeddings f incH mn mv created2
            (convert_chunks_to_embeddings f incH mn mv created1 cache0
              rows).2.1 rows).1.map (fun e => e.embedding) =
          (convert_chunks_to_embeddings f incH mn mv created1 cache0
            rows).1.map (fun e => e.embedding) ∧
        (convert_chunks_to_embeddings f incH mn mv created2
            (convert_chunks_to_embeddings f incH mn mv created1 cache0
              rows).2.1 rows).1.map (fun e => e.hembs) =
          (convert_chunks_to_embeddings f incH mn mv created1 cache0
            rows).1.map (fun e => e.hembs) := by
  intro f incH mn mv created1 created2 cache0 rows
  have hrun1 := convertGo_spec f incH mn mv created1 rows []
    { map := loadCache cache0, file := cache0, calls := 0 } [] rfl
  simp only [List.nil_append] at hrun1
  have hrun2 := convertGo_all_hits f incH mn mv created2 rows []
    { map := loadCache (convertGo f incH mn mv created1 [] rows
        { map := loadCache cache0, file := cache0, calls := 0 } []).2.file,
      file := (convertGo f incH mn mv created1 [] rows
        { map := loadCache cache0, file := cache0, calls := 0 } []).2.file,
      calls := 0 } []
    (by
      simp only [List.nil_append]
      intro t ht
      rw [← hrun1.1]
      exact hrun1.2.2.1 t ht)
  simp only [List.nil_append] at hrun2
  have hc1 : (convert_chunks_to_embeddings f incH mn mv created1 cache0
      rows).2.1 = (convertGo f incH mn mv created1 [] rows
        { map := loadCache cache0, file := cache0, calls := 0 } []).2.file := rfl
  have hout1 : (convert_chunks_to_embeddings f incH mn mv created1 cache0
      rows).1 = (convertGo f incH mn mv created1 [] rows
        { map := loadCache cache0, file := cache0, calls := 0 } []).1 := rfl
  have hc2calls : (convert_chunks_to_embeddings f incH mn mv created2
      (convertGo f incH mn mv created1 [] rows
        { map := loadCache cache0, file := cache0, calls := 0 } []).2.file
      rows).2.2 =
      (convertGo f incH mn mv created2 [] rows
        { map := loadCache (convertGo f incH mn mv created1 [] rows
            { map := loadCache cache0, file := cache0, calls := 0 } []).2.file,
          file := (convertGo f incH mn mv created1 [] rows
            { map := loadCache cache0, file := cache0, calls := 0 } []).2.file,
          calls := 0 } []).2.calls := rfl
  have hc2file : (convert_chunks_to_embeddings f incH mn mv created2
      (convertGo f incH mn mv created1 [] rows
        { map := loadCache cache0, file := cache0, calls := 0 } []).2.file
      rows).2.1 =
      (convertGo f incH mn mv created2 [] rows
        { map := loadCache (convertGo f incH mn mv created1 [] rows
            { map := loadCache cache0, file := cache0, calls := 0 } []).2.file,
          file := (convertGo f incH mn mv created1 [] rows
            { map := loadCache cache0, file := cache0, calls := 0 } []).2.file,
          calls := 0 } []).2.file := rfl
  have hc2out : (convert_chunks_to_embeddings f incH mn mv created2
      (convertGo f incH mn mv created1 [] rows
        { map := loadCache cache0, file := cache0, calls := 0 } []).2.file
      rows).1 =
      (convertGo f incH mn mv created2 [] rows
        { map := loadCache (convertGo f incH mn mv created1 [] rows
            { map := loadCache cache0, file := cache0, calls := 0 } []).2.file,
          file := (convertGo f incH mn mv created1 [] rows
            { map := loadCache cache0, file := cache0, calls := 0 } []).2.file,
          calls := 0 } []).1 := rfl
  refine ⟨?_, ?_, ?_, ?_⟩
  · rw [hc1, hc2calls, hrun2]
  · rw [hc1, hc2file, hrun2]
  · rw [hc1, hc2out, hrun2, hout1, hrun1.2.2.2.1, hrun1.1]
    simp only []
    rw [List.map_map, List.map_map]
    refine List.map_congr_left ?_
    intro q hq
    rfl
  · rw [hc1, hc2out, hrun2, hout1, hrun1.2.2.2.1, hrun1.1]
    simp only []
    rw [List.map_map, List.map_map]
    refine List.map_congr_left ?_
    intro q hq
    rfl

/-! ## Line structure of chunk texts (for C1) -/

lemma splitNl_ne_nil : ∀ cs : List Char, splitNl cs ≠ []
  | [] => by simp [splitNl]
  | c :: cs => by
    rw [splitNl]
    by_cases h : c = '\n'
    · simp [h]
    · rw [if_neg h]
      rcases hs : splitNl cs with _ | ⟨l, ls⟩ <;> simp [hs]

lemma splitNl_cons_nl (cs : List Char) :
    splitNl ('\n' :: cs) = [] :: splitNl cs := by
  rw [splitNl]
  rw [if_pos rfl]

lemma splitNl_cons_other (c : Char) (cs : List Char) (h : ¬ c = '\n') :
    splitNl (c :: cs) =
      (c :: (splitNl cs).headD []) :: (splitNl cs).tail := by
  rcases hs : splitNl cs with _ | ⟨l, ls⟩
  · exact absurd hs (splitNl_ne_nil cs)
  · rw [splitNl, if_neg h, hs]
    rfl

lemma splitNl_no_nl : ∀ cs : List Char, ∀ l ∈ splitNl cs, '\n' ∉ l
  | [] => by simp [splitNl]
  | c :: cs => by
    intro l hl
    by_cases h : c = '\n'
    · subst h
      rw [splitNl_cons_nl] at hl
      rcases List.mem_cons.mp hl with rfl | hl
      · simp
      · exact splitNl_no_nl cs l hl
    · rw [splitNl_cons_other c cs h] at hl
      rcases hs : splitNl cs with _ | ⟨l0, ls⟩
      · exact absurd hs (splitNl_ne_nil cs)
      · rw [hs] at hl
        rcases List.mem_cons.mp hl with rfl | hl
        · intro hmem
          rcases List.mem_cons.mp hmem with h' | h'
          · exact h h'.symm
          · refine splitNl_no_nl cs l0 ?_ h'
            rw [hs]
            exact List.mem_cons_self _ _
        · refine splitNl_no_nl cs l ?_
          rw [hs]
          exact List.mem_cons_of_mem _ hl

lemma splitNl_append_nl : ∀ xs ys : List Char,
    splitNl (xs ++ '\n' :: ys) = splitNl xs ++ splitNl ys
  | [], ys => by
    rw [List.nil_append, splitNl_cons_nl]
    rfl
  | x :: xs, ys => by
    by_cases h : x = '\n'
    · subst h
      rw [List.cons_append, splitNl_cons_nl, splitNl_cons_nl,
        splitNl_append_nl xs ys, List.cons_append]
    · rw [List.cons_append, splitNl_cons_other x _ h, splitNl_cons_other x _ h,
        splitNl_append_nl xs ys]
      rcases hs : splitNl xs with _ | ⟨l, ls⟩
      · exact absurd hs (splitNl_ne_nil xs)
      · simp

lemma splitNl_of_no_nl : ∀ cs : List Char, '\n' ∉ cs → splitNl cs = [cs]
  | [] => by intro _; rfl
  | c :: cs => by
    intro h
    have hc : ¬ c = '\n' := by
      intro hc
      refine h ?_
      rw [← hc]
      exact List.mem_cons_self c cs
    rw [splitNl_cons_other c cs hc,
      splitNl_of_no_nl cs (fun hm => h (List.mem_cons_of_mem c hm))]
    rfl

lemma dropLast_getLastD : ∀ (L : List (List Char)) (d : List Char), L ≠ [] →
    L.dropLast ++ [L.getLastD d] = L
  | [a], _, _ => rfl
  | a :: b :: L, d, _ => by
    rw [List.dropLast_cons₂, List.getLastD_cons, List.cons_append,
      dropLast_getLastD (b :: L) a (by simp)]

lemma splitNl_append : ∀ y t : List Char,
    splitNl (y ++ t) = (splitNl y).dropLast ++
      ((splitNl y).getLastD [] ++ (splitNl t).headD []) :: (splitNl t).tail
  | [], t => by
    rw [List.nil_append]
    rcases ht : splitNl t with _ | ⟨l, ls⟩
    · exact absurd ht (splitNl_ne_nil t)
    · simp [splitNl]
  | y0 :: y, t => by
    by_cases h : y0 = '\n'
    · subst h
      rw [List.cons_append, splitNl_cons_nl, splitNl_cons_nl, splitNl_append y t]
      rcases hy : splitNl y with _ | ⟨l, ls⟩
      · exact absurd hy (splitNl_ne_nil y)
      · simp
    · rw [List.cons_append, splitNl_cons_other y0 _ h, splitNl_cons_other y0 _ h,
        splitNl_append y t]
      rcases hy : splitNl y with _ | ⟨l, ls⟩
      · exact absurd hy (splitNl_ne_nil y)
      · rcases ls with _ | ⟨l2, ls2⟩
        · simp
        · simp

lemma splitNl_mem_of_prefix (y t : List Char) :
    ∀ lc ∈ splitNl y, ∃ lc' ∈ splitNl (y ++ t), lc <+: lc' := by
  intro lc hlc
  rw [splitNl_append y t]
  rw [← dropLast_getLastD (splitNl y) [] (splitNl_ne_nil y)] at hlc
  rcases List.mem_append.mp hlc with hm | hm
  · exact ⟨lc, List.mem_append.mpr (Or.inl hm), List.prefix_refl lc⟩
  · rcases List.mem_singleton.mp hm with rfl
    exact ⟨(splitNl y).getLastD [] ++ (splitNl t).headD [],
      List.mem_append.mpr (Or.inr (List.mem_cons_self _ _)),
      List.prefix_append _ _⟩

lemma takeWhile_append_all (p : Char → Bool) :
    ∀ a b : List Char, (∀ c ∈ a, p c) →
      (a ++ b).takeWhile p = a ++ b.takeWhile p
  | [], _, _ => rfl
  | c :: a, b, h => by
    rw [List.cons_append, List.takeWhile_cons,
      if_pos (h c (List.mem_cons_self c a)),
      takeWhile_append_all p a b (fun x hx => h x (List.mem_cons_of_mem c hx)),
      List.cons_append]

lemma dropWhile_append_all (p : Char → Bool) :
    ∀ a b : List Char, (∀ c ∈ a, p c) →
      (a ++ b).dropWhile p = b.dropWhile p
  | [], _, _ => rfl
  | c :: a, b, h => by
    rw [List.cons_append, List.dropWhile_cons,
      if_pos (h c (List.mem_cons_self c a)),
      dropWhile_append_all p a b (fun x hx => h x (List.mem_cons_of_mem c hx))]

lemma isHeadingLine_mk_iff (cs : List Char) :
    isHeadingLine (String.mk cs) = true ↔
      1 ≤ (cs.takeWhile (· = '#')).length ∧
        (cs.takeWhile (· = '#')).length ≤ 6 ∧
        2 ≤ (cs.dropWhile (· = '#')).length ∧
        wsChar ((cs.dropWhile (· = '#')).headD 'x') := by
  unfold isHeadingLine headingParse
  by_cases hc : 1 ≤ (cs.takeWhile (· = '#')).length ∧
      (cs.takeWhile (· = '#')).length ≤ 6 ∧
      2 ≤ (cs.dropWhile (· = '#')).length ∧
      wsChar ((cs.dropWhile (· = '#')).headD 'x')
  · simp [hc]
  · simp [hc]

lemma isHeadingLine_append (x w : List Char)
    (h : isHeadingLine (String.mk x) = true) :
    isHeadingLine (String.mk (x ++ w)) = true := by
  rw [isHeadingLine_mk_iff] at h ⊢
  obtain ⟨h1, h2, h3, h4⟩ := h
  rcases hd : x.dropWhile (· = '#') with _ | ⟨d0, ds⟩
  · rw [hd] at h3
    simp at h3
  · have hd0 : d0 ≠ '#' := by
      intro hh
      rw [hd] at h4
      rw [show ((d0 :: ds).headD 'x') = d0 from rfl, hh] at h4
      exact absurd h4 (by decide)
    have hsplit : x = x.takeWhile (· = '#') ++ (d0 :: ds) := by
      rw [← hd, List.takeWhile_append_dropWhile]
    have hall : ∀ c ∈ x.takeWhile (· = '#'), decide (c = '#') = true := by
      intro c hcm
      have hx := List.mem_takeWhile_imp hcm
      exact hx
    have htk : (x ++ w).takeWhile (· = '#') = x.takeWhile (· = '#') := by
      conv_lhs => rw [hsplit]
      rw [List.append_assoc, takeWhile_append_all _ _ _ hall,
        List.cons_append, List.takeWhile_cons, if_neg (by simp [hd0]),
        List.append_nil]
    have hdr : (x ++ w).dropWhile (· = '#') = (d0 :: ds) ++ w := by
      conv_lhs => rw [hsplit]
      rw [List.append_assoc, dropWhile_append_all _ _ _ hall,
        List.cons_append, List.dropWhile_cons, if_neg (by simp [hd0])]
    refine ⟨by rw [htk]; exact h1, by rw [htk]; exact h2, ?_, ?_⟩
    · rw [hdr]
      rw [hd] at h3
      calc 2 ≤ (d0 :: ds).length := h3
        _ ≤ ((d0 :: ds) ++ w).length := by
            rw [List.length_append]; exact Nat.le_add_right _ _
    · rw [hdr]
      rw [hd] at h4
      exact h4

lemma not_heading_of_prefix {lc lc' : List Char} (hp : lc <+: lc')
    (h : isHeadingLine (String.mk lc') = false) :
    isHeadingLine (String.mk lc) = false := by
  rcases hp with ⟨t, rfl⟩
  by_contra hne
  rw [Bool.not_eq_false] at hne
  rw [isHeadingLine_append lc t hne] at h
  exact absurd h (by decide)

/-- A line that cannot corrupt a chunk: not a heading, and not starting with
whitespace (so a surrounding `strip()` cannot turn anything before it into
a heading prefix). -/
def GoodLineC (lc : List Char) : Prop :=
  isHeadingLine (String.mk lc) = false ∧ wsChar (lc.headD 'x') = false

/-- A buffered block all of whose lines are good. -/
def GoodBlock (b : String) : Prop := ∀ lc ∈ splitNl b.data, GoodLineC lc

lemma goodLineC_nil : GoodLineC [] := ⟨by decide, by decide⟩

lemma goodBlock_empty : GoodBlock "" := by
  intro lc hlc
  simp [splitNl] at hlc
  subst hlc
  exact goodLineC_nil

lemma joinWith_good : ∀ bs : List String, (∀ b ∈ bs, GoodBlock b) →
    GoodBlock (joinWith "\n" bs)
  | [] => fun _ => goodBlock_empty
  | [a] => fun h => h a (List.mem_singleton.mpr rfl)
  | a :: b :: r => by
    intro h lc hlc
    have hdata : (joinWith "\n" (a :: b :: r)).data =
        a.data ++ '\n' :: (joinWith "\n" (b :: r)).data := by
      show (a ++ "\n" ++ joinWith "\n" (b :: r)).data = _
      rw [data_append, data_append, List.append_assoc]
      rfl
    rw [hdata, splitNl_append_nl] at hlc
    rcases List.mem_append.mp hlc with hm | hm
    · exact h a (List.mem_cons_self _ _) lc hm
    · exact joinWith_good (b :: r) (fun x hx => h x (List.mem_cons_of_mem _ hx))
        lc hm

lemma lstrip_good : ∀ cs : List Char, (∀ lc ∈ splitNl cs, GoodLineC lc) →
    ∀ lc ∈ splitNl (cs.dropWhile wsChar), GoodLineC lc
  | [] => fun h => h
  | c :: cs => by
    intro h
    by_cases hw : wsChar c
    · rw [List.dropWhile_cons, if_pos hw]
      by_cases hn : c = '\n'
      · subst hn
        refine lstrip_good cs ?_
        intro lc hlc
        refine h lc ?_
        rw [splitNl_cons_nl]
        exact List.mem_cons_of_mem _ hlc
      · intro lc hlc
        exfalso
        have hfirst := h (c :: (splitNl cs).headD []) (by
          rw [splitNl_cons_other c cs hn]
          exact List.mem_cons_self _ _)
        have h2 : wsChar c = false := hfirst.2
        rw [h2] at hw
        exact Bool.false_ne_true hw
    · rw [List.dropWhile_cons, if_neg hw]
      exact h

lemma rstrip_prefix (cs : List Char) :
    (cs.reverse.dropWhile wsChar).reverse <+: cs :=
  ⟨(cs.reverse.takeWhile wsChar).reverse, by
    rw [← List.reverse_append, List.takeWhile_append_dropWhile,
      List.reverse_reverse]⟩

lemma strip_good (cs : List Char) (h : ∀ lc ∈ splitNl cs, GoodLineC lc) :
    ∀ lc ∈ splitNl (stripChars cs), isHeadingLine (String.mk lc) = false := by
  intro lc hlc
  have hls := lstrip_good cs h
  rcases rstrip_prefix (cs.dropWhile wsChar) with ⟨t, ht⟩
  have he : stripChars cs ++ t = cs.dropWhile wsChar := ht
  obtain ⟨lc', hlc', hp⟩ := splitNl_mem_of_prefix (stripChars cs) t lc hlc
  rw [he] at hlc'
  exact not_heading_of_prefix hp (hls lc' hlc').1

/-! ## Which lines enter the buffer (for C1) -/

lemma stripChars_nil_all_ws (cs : List Char) (h : stripChars cs = []) :
    ∀ c ∈ cs, wsChar c = true := by
  intro c hc
  by_cases hcw : wsChar c = true
  · exact hcw
  · exfalso
    have hc2 : c ∈ cs.takeWhile wsChar ++ cs.dropWhile wsChar := by
      rw [List.takeWhile_append_dropWhile]
      exact hc
    rcases List.mem_append.mp hc2 with hm | hm
    · have hx := List.mem_takeWhile_imp hm
      exact hcw hx
    · unfold stripChars at h
      rw [List.reverse_eq_nil_iff, List.dropWhile_eq_nil_iff] at h
      exact hcw (h c (List.mem_reverse.mpr hm))

lemma isHeadingLine_of_data_nil (l : String) (h : l.data = []) :
    isHeadingLine l = false := by
  rw [show l = String.mk l.data from rfl, h]
  decide

lemma list_start_not_heading (l : String) (h : is_list_item_start l = true) :
    isHeadingLine l = false := by
  by_contra hne
  rw [Bool.not_eq_false] at hne
  have hne' : isHeadingLine (String.mk l.data) = true := hne
  rw [isHeadingLine_mk_iff] at hne'
  obtain ⟨h1, _, _, _⟩ := hne'
  rcases hld : l.data with _ | ⟨c, cs⟩
  · rw [hld] at h1
    simp at h1
  · have hc : c = '#' := by
      by_contra hcne
      rw [hld, List.takeWhile_cons, if_neg (by simp [hcne])] at h1
      simp at h1
    unfold is_list_item_start at h
    simp only [] at h
    rw [hld, hc, List.dropWhile_cons, if_neg (by decide)] at h
    simp only [] at h
    rw [if_neg (by decide)] at h
    have htw : ('#' :: cs).takeWhile Char.isDigit = [] := by
      rw [List.takeWhile_cons, if_neg (by decide)]
    rw [htw, if_pos rfl] at h
    exact absurd h (by decide)

lemma continuation_head_ws (l : String)
    (h : is_indented_continuation l = true) :
    wsChar (l.data.headD 'x') = true := by
  unfold is_indented_continuation at h
  rw [decide_eq_true_eq] at h
  rcases h with ⟨h2, _⟩ | ht
  · rcases hld : l.data with _ | ⟨c, cs⟩
    · rw [hld] at h2
      simp at h2
    · by_cases hw : wsChar c = true
      · exact hw
      · rw [hld, List.takeWhile_cons, if_neg hw] at h2
        simp at h2
  · rw [ht]
    decide

lemma good_source_line (l : String)
    (hws : wsChar (l.data.headD 'x') = false)
    (hnh : isHeadingLine l = false) (hnl : '\n' ∉ l.data) : GoodBlock l := by
  intro lc hlc
  rw [splitNl_of_no_nl l.data hnl] at hlc
  rcases List.mem_singleton.mp hlc with rfl
  exact ⟨hnh, hws⟩

lemma listCollect_cons (l : String) (ls : List String) :
    listCollect (l :: ls) =
      if is_list_item_start l = true ∨ is_indented_continuation l = true then
        (l :: (listCollect ls).1, (listCollect ls).2 + 1)
      else if (pyStrip l).data = [] then
        match ls with
        | [] => ([], 0)
        | l2 :: _ =>
          if is_list_item_start l2 = true ∨ is_indented_continuation l2 = true
          then (l :: (listCollect ls).1, (listCollect ls).2 + 1)
          else ([], 0)
      else ([], 0) := rfl

lemma listCollect_take : ∀ ls : List String,
    (listCollect ls).1 = ls.take (listCollect ls).2
  | [] => rfl
  | l :: ls => by
    rw [listCollect_cons]
    by_cases h1 : is_list_item_start l = true ∨ is_indented_continuation l = true
    · rw [if_pos h1]
      simp only []
      rw [listCollect_take ls]
      rfl
    · rw [if_neg h1]
      by_cases h2 : (pyStrip l).data = []
      · rw [if_pos h2]
        rcases ls with _ | ⟨l2, ls2⟩
        · simp
        · simp only []
          by_cases h3 : is_list_item_start l2 = true ∨
              is_indented_continuation l2 = true
          · rw [if_pos h3]
            simp only []
            rw [listCollect_take (l2 :: ls2)]
            rfl
          · rw [if_neg h3]
            simp
      · rw [if_neg h2]
        simp

lemma listCollect_props : ∀ ls : List String, ∀ x ∈ (listCollect ls).1,
    x ∈ ls ∧ (is_list_item_start x = true ∨ is_indented_continuation x = true ∨
      (pyStrip x).data = [])
  | [] => by simp [listCollect]
  | l :: ls => by
    intro x hx
    rw [listCollect_cons] at hx
    by_cases h1 : is_list_item_start l = true ∨ is_indented_continuation l = true
    · rw [if_pos h1] at hx
      simp only [] at hx
      rcases List.mem_cons.mp hx with rfl | hx
      · exact ⟨List.mem_cons_self _ _, by
          rcases h1 with h1 | h1
          · exact Or.inl h1
          · exact Or.inr (Or.inl h1)⟩
      · have hr := listCollect_props ls x hx
        exact ⟨List.mem_cons_of_mem _ hr.1, hr.2⟩
    · rw [if_neg h1] at hx
      by_cases h2 : (pyStrip l).data = []
      · rw [if_pos h2] at hx
        rcases ls with _ | ⟨l2, ls2⟩
        · simp at hx
        · simp only [] at hx
          by_cases h3 : is_list_item_start l2 = true ∨
              is_indented_continuation l2 = true
          · rw [if_pos h3] at hx
            simp only [] at hx
            rcases List.mem_cons.mp hx with rfl | hx
            · exact ⟨List.mem_cons_self _ _, Or.inr (Or.inr h2)⟩
            · have hr := listCollect_props (l2 :: ls2) x hx
              exact ⟨List.mem_cons_of_mem _ hr.1, hr.2⟩
          · rw [if_neg h3] at hx
            simp at hx
      · rw [if_neg h2] at hx
        simp at hx

lemma collected_good (lines : List String)
    (hl2 : ∀ l ∈ lines, wsChar (l.data.headD 'x') = false)
    (hl3 : ∀ l ∈ lines, '\n' ∉ l.data) (i : Nat) :
    ∀ x ∈ (listCollect (lines.drop i)).1, GoodBlock x := by
  intro x hx
  obtain ⟨hmem, hprop⟩ := listCollect_props (lines.drop i) x hx
  have hxl : x ∈ lines := List.drop_subset i lines hmem
  refine good_source_line x (hl2 x hxl) ?_ (hl3 x hxl)
  rcases hprop with hs | hc | hb
  · exact list_start_not_heading x hs
  · have hwst := continuation_head_ws x hc
    rw [hl2 x hxl] at hwst
    exact absurd hwst (by decide)
  · have hallws := stripChars_nil_all_ws x.data hb
    rcases hxd : x.data with _ | ⟨c, cs⟩
    · exact isHeadingLine_of_data_nil x hxd
    · exfalso
      have hwc := hallws c (by rw [hxd]; exact List.mem_cons_self _ _)
      have hh := hl2 x hxl
      rw [hxd, show ((c :: cs).headD 'x') = c from rfl] at hh
      rw [hh] at hwc
      exact absurd hwc (by decide)

lemma parse_list_block_eq (lines : List String) (i : Nat)
    (hi : ¬ i ≥ lines.length)
    (hst : is_list_item_start (lines.getD i "") = true) :
    parse_list_block lines i =
      (joinWith "\n" (listCollect (lines.drop i)).1,
        i + (listCollect (lines.drop i)).2) := by
  unfold parse_list_block
  rw [if_neg (not_or.mpr ⟨hi, not_not_intro hst⟩)]

lemma parse_table_block_no_pipe (lines : List String) (i : Nat)
    (hi : ¬ i ≥ lines.length)
    (hp : (lines.getD i "").data.contains '|' = false) :
    parse_table_block lines i = ("", i) := by
  unfold parse_table_block
  rw [if_neg hi]
  simp only []
  rw [if_pos (by rw [hp]; decide)]

lemma headingFold_append (a b : List String) :
    headingFold (a ++ b) = b.foldl (fun hs l =>
      match headingParse l with
      | some (lvl, t) => setHeading hs lvl t
      | none => hs) (headingFold a) := by
  unfold headingFold
  rw [List.foldl_append]

lemma foldl_headings_none (bs : List String) (hs : HMap)
    (h : ∀ l ∈ bs, headingParse l = none) :
    bs.foldl (fun hs l =>
      match headingParse l with
      | some (lvl, t) => setHeading hs lvl t
      | none => hs) hs = hs := by
  induction bs generalizing hs with
  | nil => rfl
  | cons b bs ih =>
    rw [List.foldl_cons]
    rw [h b (List.mem_cons_self _ _)]
    simp only []
    exact ih _ (fun l hl => h l (List.mem_cons_of_mem _ hl))

lemma headingFold_take_succ_none (lines : List String) (i : Nat)
    (hi : i < lines.length) (hn : headingParse (lines.getD i "") = none) :
    headingFold (lines.take (i + 1)) = headingFold (lines.take i) := by
  rw [List.take_succ, List.getElem?_eq_getElem hi]
  rw [headingFold_append]
  rw [show (some lines[i]).toList = [lines[i]] from rfl]
  rw [List.foldl_cons]
  rw [show lines[i] = lines.getD i "" from (List.getD_eq_getElem lines "" hi).symm]
  rw [hn]
  simp only []
  rfl

lemma headingFold_take_succ_some (lines : List String) (i lvl : Nat)
    (t : String) (hi : i < lines.length)
    (hp : headingParse (lines.getD i "") = some (lvl, t)) :
    headingFold (lines.take (i + 1)) =
      setHeading (headingFold (lines.take i)) lvl t := by
  rw [List.take_succ, List.getElem?_eq_getElem hi]
  rw [headingFold_append]
  rw [show (some lines[i]).toList = [lines[i]] from rfl]
  rw [List.foldl_cons]
  rw [show lines[i] = lines.getD i "" from (List.getD_eq_getElem lines "" hi).symm]
  rw [hp]
  simp only []
  rfl

lemma headingFold_take_add_none (lines : List String) (i n : Nat)
    (h : ∀ l ∈ (lines.drop i).take n, headingParse l = none) :
    headingFold (lines.take (i + n)) = headingFold (lines.take i) := by
  rw [List.take_add, headingFold_append, foldl_headings_none _ _ h]

lemma emitBuffer_good (hs : HMap) (budget : Nat) (buf : List String) (i : Nat)
    (hbuf : ∀ b ∈ buf, GoodBlock b) :
    ∀ p ∈ emitBuffer hs budget buf i,
      (∀ lc ∈ splitNl p.1.text.data, isHeadingLine (String.mk lc) = false) ∧
        p.1.headings = hs ∧ p.2 = i := by
  intro p hp
  rcases List.mem_map.mp hp with ⟨g, hg, rfl⟩
  refine ⟨?_, rfl, rfl⟩
  intro lc hlc
  have hgb : ∀ b ∈ g, GoodBlock b := by
    intro b hb
    refine hbuf b ?_
    have hbm : b ∈ (packBlocks budget buf).flatten :=
      List.mem_flatten.mpr ⟨g, hg, hb⟩
    rw [show packBlocks budget buf = packLoop budget buf [] 0 from rfl,
      packLoop_flatten budget buf [] 0, List.nil_append] at hbm
    exact hbm
  exact strip_good (joinWith "\n" g).data (joinWith_good g hgb) lc hlc

lemma popTrailingBlanks_subset (buf : List String) :
    ∀ b ∈ (popTrailingBlanks buf).1, b ∈ buf := by
  intro b hb
  unfold popTrailingBlanks at hb
  simp only [] at hb
  rw [List.mem_reverse] at hb
  rw [← List.mem_reverse]
  exact List.dropWhile_subset _ hb

lemma headingParse_eq_none_of_not (l : String) (h : isHeadingLine l = false) :
    headingParse l = none := by
  unfold isHeadingLine at h
  rcases hp : headingParse l with _ | v
  · rfl
  · rw [hp] at h
    simp at h

lemma collected_not_heading (lines : List String)
    (hl2 : ∀ l ∈ lines, wsChar (l.data.headD 'x') = false)
    (hl3 : ∀ l ∈ lines, '\n' ∉ l.data) (i : Nat) :
    ∀ x ∈ (listCollect (lines.drop i)).1, headingParse x = none := by
  intro x hx
  obtain ⟨hmem, _⟩ := listCollect_props (lines.drop i) x hx
  have hxl : x ∈ lines := List.drop_subset i lines hmem
  have hg := collected_good lines hl2 hl3 i x hx
  have hone : x.data ∈ splitNl x.data := by
    rw [splitNl_of_no_nl x.data (hl3 x hxl)]
    exact List.mem_singleton.mpr rfl
  exact headingParse_eq_none_of_not x (hg x.data hone).1

lemma goodBlock_append_sep (a c sep : String)
    (hsep : sep = "\n" ∨ sep = "\n\n")
    (ha : GoodBlock a) (hc : GoodBlock c) : GoodBlock (a ++ sep ++ c) := by
  intro lc hlc
  rcases hsep with rfl | rfl
  · rw [show (a ++ "\n" ++ c).data = a.data ++ '\n' :: c.data from by
      rw [data_append, data_append, List.append_assoc]; rfl] at hlc
    rw [splitNl_append_nl] at hlc
    rcases List.mem_append.mp hlc with hm | hm
    · exact ha lc hm
    · exact hc lc hm
  · rw [show (a ++ "\n\n" ++ c).data = a.data ++ '\n' :: '\n' :: c.data from by
      rw [data_append, data_append, List.append_assoc]; rfl] at hlc
    rw [splitNl_append_nl] at hlc
    rcases List.mem_append.mp hlc with hm | hm
    · exact ha lc hm
    · rw [splitNl_cons_nl] at hm
      rcases List.mem_cons.mp hm with rfl | hm
      · exact goodLineC_nil
      · exact hc lc hm

/-- A chunk emitted at position `i`: its text holds no heading line, and its
headings snapshot is the heading fold of the first `i` source lines. -/
def GoodEmit (lines : List String) (p : Chunk × Nat) : Prop :=
  (∀ lc ∈ splitNl p.1.text.data, isHeadingLine (String.mk lc) = false) ∧
    p.1.headings = headingFold (lines.take p.2)

lemma chunkLoop_good (lines : List String) (budget : Nat)
    (hl1 : ∀ l ∈ lines, l.data.contains '|' = false)
    (hl2 : ∀ l ∈ lines, wsChar (l.data.headD 'x') = false)
    (hl3 : ∀ l ∈ lines, '\n' ∉ l.data) :
    ∀ (fuel i : Nat) (hs : HMap) (buf : List String) (acc : List (Chunk × Nat)),
      (∀ b ∈ buf, GoodBlock b) →
      hs = headingFold (lines.take i) →
      (∀ p ∈ acc, GoodEmit lines p) →
      ∀ p ∈ chunkLoop lines budget fuel i hs buf acc, GoodEmit lines p
  | 0, i, hs, buf, acc => by
    intro hbuf hhs hacc p hp
    rw [chunkLoop] at hp
    rcases List.mem_append.mp hp with h | h
    · exact hacc p h
    · obtain ⟨ht, hh, hi⟩ := emitBuffer_good hs budget buf i hbuf p h
      exact ⟨ht, by rw [hh, hi, hhs]⟩
  | fuel + 1, i, hs, buf, acc => by
    intro hbuf hhs hacc p hp
    rw [chunkLoop] at hp
    by_cases hlen : i ≥ lines.length
    · rw [if_pos hlen] at hp
      rcases List.mem_append.mp hp with h | h
      · exact hacc p h
      · obtain ⟨ht, hh, hi⟩ := emitBuffer_good hs budget buf i hbuf p h
        exact ⟨ht, by rw [hh, hi, hhs]⟩
    · rw [if_neg hlen] at hp
      simp only [] at hp
      have hil : i < lines.length := Nat.lt_of_not_le hlen
      have hline_mem : lines.getD i "" ∈ lines := by
        rw [List.getD_eq_getElem lines "" hil]
        exact List.getElem_mem hil
      rcases hhp : headingParse (lines.getD i "") with _ | ⟨lvl, title⟩
      · -- no heading at line i
        simp only [hhp] at hp
        have htb : (parse_table_block lines i).1 = "" := by
          rw [parse_table_block_no_pipe lines i hlen (hl1 _ hline_mem)]
        rw [if_neg (not_not_intro htb)] at hp
        by_cases hstart : is_list_item_start (lines.getD i "") = true
        · rw [if_pos hstart] at hp
          have hplb := parse_list_block_eq lines i hlen hstart
          by_cases hlb : (parse_list_block lines i).1 ≠ ""
          · rw [if_pos hlb] at hp
            have hgoodlb : GoodBlock (parse_list_block lines i).1 := by
              rw [hplb]
              exact joinWith_good _ (collected_good lines hl2 hl3 i)
            have hfold2 : headingFold (lines.take (parse_list_block lines i).2) =
                headingFold (lines.take i) := by
              rw [hplb]
              exact headingFold_take_add_none lines i _ (by
                intro l hl
                rw [← listCollect_take] at hl
                exact collected_not_heading lines hl2 hl3 i l hl)
            rcases hcp : collect_previous_paragraph lines i with ⟨op, gap⟩
            rw [hcp] at hp
            rcases op with _ | ⟨para⟩
            · simp only [] at hp
              refine chunkLoop_good lines budget hl1 hl2 hl3 fuel _ _ _ _
                ?_ ?_ hacc p hp
              · intro b hb
                rcases List.mem_append.mp hb with hb | hb
                · exact hbuf b hb
                · rcases List.mem_singleton.mp hb with rfl
                  exact hgoodlb
              · rw [hhs]
                exact hfold2.symm
            · simp only [] at hp
              by_cases hmg : para.length ≤ (popTrailingBlanks buf).1.length ∧
                  takeLast (popTrailingBlanks buf).1 para.length = para
              · rw [if_pos hmg] at hp
                refine chunkLoop_good lines budget hl1 hl2 hl3 fuel _ _ _ _
                  ?_ ?_ hacc p hp
                · intro b hb
                  rcases List.mem_append.mp hb with hb | hb
                  · have hb1 : b ∈ (popTrailingBlanks buf).1 :=
                      List.mem_of_mem_take hb
                    exact hbuf b (popTrailingBlanks_subset buf b hb1)
                  · rcases List.mem_singleton.mp hb with rfl
                    have hpara : ∀ x ∈ para, GoodBlock x := by
                      intro x hxp
                      rw [← hmg.2] at hxp
                      have hxb : x ∈ (popTrailingBlanks buf).1 :=
                        List.mem_of_mem_drop hxp
                      exact hbuf x (popTrailingBlanks_subset buf x hxb)
                    by_cases hgap : gap > 0
                    · rw [if_pos hgap]
                      exact goodBlock_append_sep _ _ _ (Or.inr rfl)
                        (joinWith_good _ hpara) hgoodlb
                    · rw [if_neg hgap]
                      exact goodBlock_append_sep _ _ _ (Or.inl rfl)
                        (joinWith_good _ hpara) hgoodlb
                · rw [hhs]
                  exact hfold2.symm
              · rw [if_neg hmg] at hp
                refine chunkLoop_good lines budget hl1 hl2 hl3 fuel _ _ _ _
                  ?_ ?_ hacc p hp
                · intro b hb
                  rcases List.mem_append.mp hb with hb | hb
                  · rcases List.mem_append.mp hb with hb | hb
                    · exact hbuf b (popTrailingBlanks_subset buf b hb)
                    · rw [List.eq_of_mem_replicate hb]
                      exact goodBlock_empty
                  · rcases List.mem_singleton.mp hb with rfl
                    exact hgoodlb
                · rw [hhs]
                  exact hfold2.symm
          · rw [if_neg hlb] at hp
            refine chunkLoop_good lines budget hl1 hl2 hl3 fuel _ _ _ _
              ?_ ?_ hacc p hp
            · intro b hb
              rcases List.mem_append.mp hb with hb | hb
              · exact hbuf b hb
              · rcases List.mem_singleton.mp hb with rfl
                exact good_source_line _ (hl2 _ hline_mem)
                  (by unfold isHeadingLine; rw [hhp]; rfl) (hl3 _ hline_mem)
            · rw [hhs]
              exact (headingFold_take_succ_none lines i hil hhp).symm
        · rw [if_neg hstart] at hp
          refine chunkLoop_good lines budget hl1 hl2 hl3 fuel _ _ _ _
            ?_ ?_ hacc p hp
          · intro b hb
            rcases List.mem_append.mp hb with hb | hb
            · exact hbuf b hb
            · rcases List.mem_singleton.mp hb with rfl
              exact good_source_line _ (hl2 _ hline_mem)
                (by unfold isHeadingLine; rw [hhp]; rfl) (hl3 _ hline_mem)
          · rw [hhs]
            exact (headingFold_take_succ_none lines i hil hhp).symm
      · -- heading at line i: flush and reset
        simp only [hhp] at hp
        have hemit : ∀ q ∈ acc ++ emitBuffer hs budget buf i, GoodEmit lines q := by
          intro q hq
          rcases List.mem_append.mp hq with h | h
          · exact hacc q h
          · obtain ⟨ht, hh, hi2⟩ := emitBuffer_good hs budget buf i hbuf q h
            exact ⟨ht, by rw [hh, hi2, hhs]⟩
        refine chunkLoop_good lines budget hl1 hl2 hl3 fuel _ _ _ _
          ?_ ?_ hemit p hp
        · intro b hb
          simp at hb
        · rw [headingFold_take_succ_some lines i lvl title hil hhp, hhs]

/-- C1 (amended): over Markdown whose lines contain no `|` (no table
rendering) and never begin with a whitespace character (no `strip()`
promotion), every chunk of `build_chunks_from_markdown` is free of heading
lines, and — through the emission-position instrumented `buildChunksI` —
each chunk's headings map equals the active heading map (`headingFold`) at
its emission position. Without the provisos the claim is false, see
`c1_counterexample_heading_in_text`. -/
theorem c1_amended_no_heading_lines (md : String) (budget : Nat) (src : String)
    (h1 : ∀ l ∈ pySplitlines md, l.data.contains '|' = false)
    (h2 : ∀ l ∈ pySplitlines md, wsChar (l.data.headD 'x') = false) :
    (∀ p ∈ buildChunksI md budget,
        (∀ l ∈ linesOf p.1.text, isHeadingLine l = false) ∧
        p.1.headings = headingFold ((pySplitlines md).take p.2)) ∧
      ∀ c ∈ build_chunks_from_markdown md budget src,
        ∀ l ∈ linesOf c.text, isHeadingLine l = false := by
  have hl3 : ∀ l ∈ pySplitlines md, '\n' ∉ l.data := by
    intro l hl
    unfold pySplitlines at hl
    by_cases hz : md.data = []
    · rw [if_pos hz] at hl
      simp at hl
    · rw [if_neg hz] at hl
      by_cases hlast : md.data.getLast? = some '\n'
      · rw [if_pos hlast] at hl
        unfold linesOf at hl
        rcases List.mem_map.mp hl with ⟨lc, hlc, rfl⟩
        exact splitNl_no_nl _ lc hlc
      · rw [if_neg hlast] at hl
        unfold linesOf at hl
        rcases List.mem_map.mp hl with ⟨lc, hlc, rfl⟩
        exact splitNl_no_nl _ lc hlc
  have hmain := chunkLoop_good (pySplitlines md) budget h1 h2 hl3
    ((pySplitlines md).length + 1) 0 [] [] []
    (by intro b hb; simp at hb) rfl (by intro p hp; simp at hp)
  constructor
  · intro p hp
    have hg := hmain p hp
    refine ⟨?_, hg.2⟩
    intro l hl
    unfold linesOf at hl
    rcases List.mem_map.mp hl with ⟨lc, hlc, rfl⟩
    exact hg.1 lc hlc
  · intro c hc
    unfold build_chunks_from_markdown renumber at hc
    rcases List.mem_map.mp hc with ⟨q, hq, rfl⟩
    intro l hl
    have hq2 : q.2 ∈ (buildChunksI md budget).map Prod.fst := by
      have hm := List.mem_map_of_mem Prod.snd hq
      rwa [List.enum_map_snd] at hm
    rcases List.mem_map.mp hq2 with ⟨p, hp, hpeq⟩
    have hg := hmain p hp
    unfold linesOf at hl
    rcases List.mem_map.mp hl with ⟨lc, hlc, rfl⟩
    have htxt : ({ q.2 with
        chunk_id := pathStem src ++ "-" ++ toString (q.1 + 1) } : Chunk).text =
        p.1.text := by
      rw [← hpeq]
    rw [htxt] at hlc
    exact hg.1 lc hlc

/-- The concrete document of the C1 witness. -/
def c1md : String := "# A\n\nx y\n\n- a b\n- c\n\n## B\n\nz"

/-- Witness for C1 (amended) at a concrete document, budget 3 and source
`doc.md`: both hypotheses hold and the theorem applies. -/
theorem c1_amended_witness :
    (∀ l ∈ pySplitlines c1md, l.data.contains '|' = false) ∧
      (∀ l ∈ pySplitlines c1md, wsChar (l.data.headD 'x') = false) ∧
      ((∀ p ∈ buildChunksI c1md 3,
          (∀ l ∈ linesOf p.1.text, isHeadingLine l = false) ∧
          p.1.headings = headingFold ((pySplitlines c1md).take p.2)) ∧
        ∀ c ∈ build_chunks_from_markdown c1md 3 "doc.md",
          ∀ l ∈ linesOf c.text, isHeadingLine l = false) :=
  ⟨by decide, by decide,
    c1_amended_no_heading_lines c1md 3 "doc.md" (by decide) (by decide)⟩

end AwsGpu
